import Mathlib

/-!
WordScrambler: the puzzle engine of `word-scrambler.cpp`.

A shallow embedding of the class `WordScrambler` (grid sizing, free-space
index, word ordering, vacancy probe, insertion, noise fill) together with the
properties of the engine that are checked against it.

Conventions of the embedding.

* A `char` is its byte value, a natural number; a `std::string` is a list of
  bytes. The empty sentinel of the grid is the byte `0`.
* `std::vector<std::string> m_puzzle` is a list of rows. Reading outside a
  table is undefined in the source; the model reads the sentinel there and a
  write outside the table leaves it as it is. The theorems on the build show
  that the cells written by an insertion are inside the grid.
* `rand()` is a stream `rnd : Nat → Nat` read at a position that every call
  advances by one. The `std::mt19937_64` generator of `scramble` is a second
  stream `gen`.
* `std::size_t` and `int` values are unbounded numbers; the only place where
  wrap-around could matter, the subtraction in `main`, is modelled modulo
  `2 ^ 64`.
* A second, checked copy of the operations (names ending in `Chk`) returns
  `none` at the first access outside a table, zero modulus or distribution
  with an empty range; it is used where a property is about such faults.
-/

set_option autoImplicit false

/-- The constant `NEG_INF` of `utility.hpp`. -/
def NEG_INF : Int := -1000000

/-- The struct `Coord`: a (row, column) pair, both `NEG_INF` when unset. -/
structure Coord where
  x : Int := NEG_INF
  y : Int := NEG_INF
deriving DecidableEq, Repr

/-- The enum `Dir` of `utility.hpp`, in declaration order (`NL = 0`, ..., `SE = 8`). -/
inductive Dir where
  | NL | NT | ST | WT | ET | NE | SW | NW | SE
deriving DecidableEq, Repr

/-- The cast `Dir( k )` of an integer to the enum. Only the values `1 .. 8`
are ever cast by the engine; every other value is sent to `NL`. -/
def Dir.ofInt (k : Int) : Dir :=
  if k = 1 then Dir.NT else if k = 2 then Dir.ST else if k = 3 then Dir.WT
  else if k = 4 then Dir.ET else if k = 5 then Dir.NE else if k = 6 then Dir.SW
  else if k = 7 then Dir.NW else if k = 8 then Dir.SE else Dir.NL

/-- The table `m_dirlookup`: the step function of each direction. -/
def m_dirlookup : Dir → Coord → Coord
  | Dir.NL, _ => {}
  | Dir.NT, pos => ⟨pos.x - 1, pos.y⟩
  | Dir.ST, pos => ⟨pos.x + 1, pos.y⟩
  | Dir.ET, pos => ⟨pos.x, pos.y + 1⟩
  | Dir.WT, pos => ⟨pos.x, pos.y - 1⟩
  | Dir.NE, pos => ⟨pos.x - 1, pos.y + 1⟩
  | Dir.SE, pos => ⟨pos.x + 1, pos.y + 1⟩
  | Dir.NW, pos => ⟨pos.x - 1, pos.y - 1⟩
  | Dir.SW, pos => ⟨pos.x + 1, pos.y - 1⟩

/-- The struct `PosMetaData`: a cell's coordinate, its eight free-space
counts and its `full` flag. -/
structure PosMetaData where
  pos : Coord := {}
  freespace : List Nat := List.replicate 8 0
  full : Bool := false
deriving DecidableEq, Repr

/-- The data members of the class `WordScrambler`. -/
structure WordScrambler where
  m_puzzle : List (List Nat) := []
  m_words : List (List Nat) := []
  m_cap_words : List (List Nat) := []
  m_nrow : Nat := 0
  m_ncol : Nat := 0
  m_pos_col : List (List PosMetaData) := []
deriving DecidableEq, Repr

namespace WordScrambler

/-! ## Tables -/

/-- Entry `t[i][j]` of a table, `d` outside the table. -/
def tget {α : Type} (t : List (List α)) (i j : Nat) (d : α) : α :=
  (t.getD i []).getD j d

/-- The assignment `t[i][j] = v`. -/
def tset {α : Type} (t : List (List α)) (i j : Nat) (v : α) : List (List α) :=
  t.set i ((t.getD i []).set j v)

/-- The read `m_puzzle[ pos.x ][ pos.y ]` at a signed coordinate. -/
def cellAt (g : List (List Nat)) (pos : Coord) : Nat :=
  if 0 ≤ pos.x ∧ 0 ≤ pos.y then tget g pos.x.toNat pos.y.toNat 0 else 0

/-- The write `m_puzzle[ pos.x ][ pos.y ] = c` at a signed coordinate. -/
def putAt (g : List (List Nat)) (pos : Coord) (c : Nat) : List (List Nat) :=
  if 0 ≤ pos.x ∧ 0 ≤ pos.y then tset g pos.x.toNat pos.y.toNat c else g

/-- The call `v.resize( n )` of a vector whose new elements are `d`. -/
def resize {α : Type} (v : List α) (n : Nat) (d : α) : List α :=
  v.take n ++ List.replicate (n - v.length) d

/-! ## Grid sizing -/

/-- Search downwards from `k` for the largest number whose square is at most `n`. -/
def floorSqrtFrom (n : Nat) : Nat → Nat
  | 0 => 0
  | k + 1 => if (k + 1) * (k + 1) ≤ n then k + 1 else floorSqrtFrom n k

/-- The integer part of the square root of `n`. -/
def floorSqrt (n : Nat) : Nat := floorSqrtFrom n n

/-- The conversion `(std::size_t)std::sqrt( 2.5*avg_len )`: the integer part of
the square root of `5 * avg_len / 2`. The double computation is exact for
every `avg_len` below `2 ^ 50`. -/
def sqrtTwoAndHalf (avg_len : Nat) : Nat := floorSqrt (5 * avg_len / 2)

/-- The first loop of `createPuzzleSkeleton`: the pair `(max_len, avg_len)`
after all words were visited. -/
def measureWords (words : List (List Nat)) : Nat × Nat :=
  words.foldl (fun acc w => (max acc.1 w.length, acc.2 + w.length)) (0, 0)

/-- The value of the local `dim` of `createPuzzleSkeleton`. -/
def puzzleDim (words : List (List Nat)) : Nat :=
  let max_len := (measureWords words).1
  let avg_len := (measureWords words).2
  let max_len := max_len + 2
  max max_len (sqrtTwoAndHalf avg_len)

/-- The method `createPuzzleSkeleton`. -/
def createPuzzleSkeleton (s : WordScrambler) : WordScrambler :=
  let dim := puzzleDim s.m_words
  let puzzle := (resize s.m_puzzle dim []).map (fun row => resize row dim 0)
  { s with
    m_puzzle := puzzle
    m_pos_col := (List.range dim).map (fun (i : Nat) =>
      (List.range dim).map (fun (j : Nat) =>
        ({ pos := ⟨(i : Int), (j : Int)⟩ } : PosMetaData)))
    m_nrow := puzzle.length
    m_ncol := puzzle.length }

/-- The constructor `WordScrambler( words )`: the members are default
initialised, `m_words` is copied and `setup` builds the skeleton. -/
def new (words : List (List Nat)) : WordScrambler :=
  createPuzzleSkeleton { m_words := words }

/-- Length of the longest word of a list (`0` for the empty list). -/
def longest (words : List (List Nat)) : Nat :=
  (words.map List.length).foldr max 0

/-- Sum of the word lengths. -/
def totalLen (words : List (List Nat)) : Nat :=
  (words.map List.length).sum

/-- The dimension as the specification words it: the larger of the longest
length plus two and the integer part of the square root of 2.5 times the
mean word length, the mean being the sum of the lengths divided by the
number of words. -/
def specDimMean (words : List (List Nat)) : Nat :=
  max (longest words + 2) (floorSqrt (5 * totalLen words / (2 * words.length)))

/-! ## Free-space index -/

/-- The method `isValidDir`. The test `pos.x >= 0` comes first, so the
comparison of the `int` with the unsigned bound is the ordinary one. -/
def isValidDir (s : WordScrambler) (pos : Coord) : Bool :=
  decide (0 ≤ pos.x) && decide (pos.x < (s.m_ncol : Int)) &&
    decide (0 ≤ pos.y) && decide (pos.y < (s.m_nrow : Int))

/-- The `while` loop of `setFreeSpace` for direction index `i`, started at
`pos`: the final value of `nfree`, or `none` when `fuel` iterations do not
reach the end of the loop. -/
def rayWalk (s : WordScrambler) (i : Nat) : Nat → Coord → Option Nat
  | 0, _ => none
  | fuel + 1, pos =>
    let next := m_dirlookup (Dir.ofInt ((i : Int) + 1)) pos
    if isValidDir s next && cellAt s.m_puzzle pos == 0 then
      (rayWalk s i fuel next).map (· + 1)
    else some 0

/-- Iterations granted to the loop of `setFreeSpace`; `rayWalk_terminates`
shows that the loop always ends within them. -/
def walkFuel (s : WordScrambler) : Nat := s.m_ncol + s.m_nrow + 1

/-- The method `setFreeSpace`: the eight slots of `freespace` are assigned
the lengths of the eight walks from `pos_m.pos`. -/
def setFreeSpace (s : WordScrambler) (pos_m : PosMetaData) : PosMetaData :=
  { pos_m with
    freespace := (List.range 8).map (fun i => (rayWalk s i (walkFuel s) pos_m.pos).getD 0) }

/-- A counting loop `for( k = 0; k < n; ++k ) st = body( k, st )`. -/
def forLoop {σ : Type} (body : Nat → σ → σ) : Nat → σ → σ
  | 0, st => st
  | n + 1, st => body n (forLoop body n st)

/-- The method `computeFreeSpace`. -/
def computeFreeSpace (s : WordScrambler) : WordScrambler :=
  { s with
    m_pos_col :=
      forLoop (fun i tbl =>
        forLoop (fun j tbl => tset tbl i j (setFreeSpace s (tget tbl i j {}))) s.m_nrow tbl)
        s.m_ncol s.m_pos_col }

/-! ## Noise fill -/

/-- The body of the loops of `addNoise` at cell `(i, j)`: the state is the
grid and the position in the `rand()` stream. -/
def noiseCell (rnd : Nat → Nat) (i j : Nat) (st : List (List Nat) × Nat) :
    List (List Nat) × Nat :=
  if tget st.1 i j 0 = 0 then (tset st.1 i j (65 + rnd st.2 % 26), st.2 + 1) else st

/-- The method `addNoise`, with the position in the `rand()` stream before
and after. -/
def addNoise (rnd : Nat → Nat) (s : WordScrambler) (p : Nat) : WordScrambler × Nat :=
  let r := forLoop (fun i st => forLoop (fun j st => noiseCell rnd i j st) s.m_nrow st)
    s.m_ncol (s.m_puzzle, p)
  ({ s with m_puzzle := r.1 }, r.2)

/-! ## Word ordering -/

/-- The function `toupper` of the C locale on a byte. -/
def toupper (c : Nat) : Nat := if 97 ≤ c ∧ c ≤ 122 then c - 32 else c

/-- The method `capitalizeWords`. -/
def capitalizeWords (s : WordScrambler) : WordScrambler :=
  let ws := s.m_words.map (fun w => w.map toupper)
  { s with m_words := ws, m_cap_words := ws }

/-- The function `reversed` of `utility.hpp`. -/
def reversed (s : List Nat) : List Nat := s.reverse

/-- The conversion of an integer to `int`, 32 bits in two's complement. -/
def toInt32 (v : Int) : Int := (v + 2147483648) % 4294967296 - 2147483648

/-- The conversion of an `int` to `std::size_t`, 64 bits unsigned. -/
def toSizeT (v : Int) : Nat := (v % 18446744073709551616).toNat

/-- A draw of `std::uniform_int_distribution<int>( 1, n )` from the raw value
`raw` of the generator. For `n > 0` every value of `[1, n]` is the image of
some raw value. For `n = 0` the range `[1, 0]` handed to the distribution is
empty, which is outside the contract of the library: the draw is then an
arbitrary `int`, negative values included, here the raw value plus one
converted to `int`, as libstdc++ computes it. -/
def dist (n raw : Nat) : Int :=
  if n = 0 then toInt32 ((raw : Int) + 1) else 1 + ((raw % n : Nat) : Int)

/-- The comparison `a < b` of two `std::string`s: bytewise on the common part,
then by length. -/
def strLess : List Nat → List Nat → Bool
  | [], [] => false
  | [], _ :: _ => true
  | _ :: _, [] => false
  | a :: as, b :: bs => decide (a < b) || (a == b && strLess as bs)

/-- The call `std::sort( begin, end, std::greater<std::string>() )`. The order
on strings is total and equivalent strings are equal, so the sorted sequence
does not depend on the sorting algorithm; the model uses insertion sort. -/
def sortDesc (ws : List (List Nat)) : List (List Nat) :=
  List.insertionSort (fun a b => strLess a b = false) ws

/-- The `while( nrev-- )` loop of `scramble`; `p` is the position in the
stream of the generator. The test `idx < m_words.size()` converts `idx` to an
unsigned value, so it fails for a negative `idx`. -/
def reverseRounds (gen : Nat → Nat) : Nat → Nat → List (List Nat) → List (List Nat)
  | 0, _, ws => ws
  | nrev + 1, p, ws =>
    let idx : Int := dist ws.length (gen p) - 1
    let ws1 := if 0 ≤ idx ∧ idx < (ws.length : Int)
      then ws.set idx.toNat (reversed (ws.getD idx.toNat [])) else ws
    reverseRounds gen nrev (p + 1) ws1

/-- The initial value of the local `std::size_t nrev` of `scramble`: the first
draw of the distribution, converted from `int` to `std::size_t`. It is the
number of rounds of the `while( nrev-- )` loop. -/
def scrambleRounds (gen : Nat → Nat) (s : WordScrambler) : Nat :=
  toSizeT (dist s.m_words.length (gen 0))

/-- The method `scramble`. -/
def scramble (gen : Nat → Nat) (s : WordScrambler) : WordScrambler :=
  let nrev := scrambleRounds gen s
  { s with m_words := sortDesc (reverseRounds gen nrev 1 s.m_words) }

/-! ## Placement search -/

/-- How the inner `for` loop of `vacant` ends. -/
inductive Probe where
  | found (idx : Nat)
  | saturated
  | exhausted
deriving DecidableEq, Repr

/-- The expression `( v ? 0 : 1 )`. -/
def zeroBit (v : Nat) : Nat := if v ≠ 0 then 0 else 1

/-- The inner loop `for( k = 0; k < 8; ++k )` of `vacant` on the free-space
array `fs`, with `iters` iterations left; returns how it ended and the
position in the `rand()` stream. `is_full` is an `unsigned char`. -/
def probeDirs (rnd : Nat → Nat) (fs : List Nat) (size : Nat) :
    Nat → Nat → Nat → Nat → Probe × Nat
  | 0, _, _, p => (Probe.exhausted, p)
  | iters + 1, k, is_full, p =>
    let idx := rnd p % 8
    let is_full1 := (is_full ||| (zeroBit (fs.getD idx 0) <<< k)) % 256
    if is_full1 = 255 then (Probe.saturated, p + 1)
    else if size ≤ fs.getD idx 0 then (Probe.found idx, p + 1)
    else probeDirs rnd fs size iters (k + 1) is_full1 (p + 1)

/-- The `while( n_trials-- )` loop of `vacant`: the returned pair, the engine
(whose `full` flags may have been set) and the position in the stream. -/
def vacantLoop (rnd : Nat → Nat) (size : Nat) :
    Nat → WordScrambler → Nat → (Int × PosMetaData) × WordScrambler × Nat
  | 0, s, p => ((-1, {}), s, p)
  | n_trials + 1, s, p =>
    let i := rnd p % s.m_ncol
    let j := rnd (p + 1) % s.m_nrow
    let cell := tget s.m_pos_col i j {}
    if cell.full then vacantLoop rnd size n_trials s (p + 2)
    else
      match probeDirs rnd cell.freespace size 8 0 0 (p + 2) with
      | (Probe.found idx, p1) => (((idx : Int), cell), s, p1)
      | (Probe.saturated, p1) =>
        vacantLoop rnd size n_trials
          { s with m_pos_col := tset s.m_pos_col i j { cell with full := true } } p1
      | (Probe.exhausted, p1) => vacantLoop rnd size n_trials s p1

/-- The method `vacant`. -/
def vacant (rnd : Nat → Nat) (s : WordScrambler) (p : Nat) (size : Nat) :
    (Int × PosMetaData) × WordScrambler × Nat :=
  vacantLoop rnd size 100 s p

/-- The loop of `insert`: the letters of `word` are written from `ipos` on,
one step in direction `Dir( first + 1 )` after each letter. -/
def insertLoop (first : Int) : List Nat → Coord → List (List Nat) → List (List Nat)
  | [], _, g => g
  | c :: cs, ipos, g =>
    insertLoop first cs (m_dirlookup (Dir.ofInt (first + 1)) ipos) (putAt g ipos c)

/-- The method `insert`. -/
def insert (s : WordScrambler) (pos_m : Int × PosMetaData) (word : List Nat) :
    WordScrambler :=
  { s with m_puzzle := insertLoop pos_m.1 word pos_m.2.pos s.m_puzzle }

/-- The method `try_position`, with the engine and the stream position
afterwards. -/
def try_position (rnd : Nat → Nat) (s : WordScrambler) (p : Nat) (word : List Nat) :
    Bool × WordScrambler × Nat :=
  let r := vacant rnd s p word.length
  if r.1.1 ≠ -1 then (true, insert r.2.1 r.1 word, r.2.2) else (false, r.2.1, r.2.2)

/-- The loop of `positionWords` over the words still to be visited, `n` being
the value of `n_inserted` so far. -/
def positionLoop (rnd : Nat → Nat) :
    List (List Nat) → WordScrambler → Nat → Nat → Nat × WordScrambler × Nat
  | [], s, p, n => (n, s, p)
  | w :: ws, s, p, n =>
    let r := try_position rnd s p w
    if r.1 then positionLoop rnd ws (computeFreeSpace r.2.1) r.2.2 (n + 1)
    else positionLoop rnd ws r.2.1 r.2.2 n

/-- The method `positionWords`. -/
def positionWords (rnd : Nat → Nat) (s : WordScrambler) (p : Nat) :
    Nat × WordScrambler × Nat :=
  positionLoop rnd s.m_words s p 0

/-- The method `rearrange`: the returned count and the engine afterwards. -/
def rearrange (gen rnd : Nat → Nat) (s : WordScrambler) : Nat × WordScrambler :=
  let s1 := computeFreeSpace s
  let s2 := capitalizeWords s1
  let s3 := scramble gen s2
  let r := positionWords rnd s3 0
  let n_inserted := r.1
  let s5 := addNoise rnd r.2.1 r.2.2
  (n_inserted, s5.1)

/-- The accessor `words`. -/
def words (s : WordScrambler) : List (List Nat) := s.m_cap_words

/-- The accessor `puzzle`. -/
def puzzle (s : WordScrambler) : List (List Nat) := s.m_puzzle

/-- The value `words.size() - n_inserted` printed by `main` as `Remaining`,
an unsigned 64-bit subtraction. -/
def remaining (total n_inserted : Nat) : Nat :=
  (((total : Int) - (n_inserted : Int)) % (2 ^ 64 : Int)).toNat

/-! ## Record of the placements -/

/-- An accepted placement: the direction index and start cell returned by
`vacant`, and the word that `insert` wrote. -/
structure Placement where
  first : Int
  start : Coord
  word : List Nat
deriving DecidableEq, Repr

/-- The placement that `try_position` makes for `word` when `vacant` accepts a
cell: the pair returned by `vacant` and the word handed to `insert`. -/
def placementOf (rnd : Nat → Nat) (s : WordScrambler) (p : Nat) (word : List Nat) :
    Placement :=
  ⟨(vacant rnd s p word.length).1.1, (vacant rnd s p word.length).1.2.pos, word⟩

/-- The placements made by the loop of `positionWords`, in order: the same
recursion as `positionLoop`, recording each successful `try_position`. -/
def placementsLoop (rnd : Nat → Nat) :
    List (List Nat) → WordScrambler → Nat → List Placement
  | [], _, _ => []
  | w :: ws, s, p =>
    let r := try_position rnd s p w
    if r.1 then
      placementOf rnd s p w :: placementsLoop rnd ws (computeFreeSpace r.2.1) r.2.2
    else placementsLoop rnd ws r.2.1 r.2.2

/-- The engine as `rearrange` hands it to `positionWords`. -/
def beforePlacement (gen : Nat → Nat) (s : WordScrambler) : WordScrambler :=
  scramble gen (capitalizeWords (computeFreeSpace s))

/-- The engine as `rearrange` hands it to `addNoise`. -/
def beforeNoise (gen rnd : Nat → Nat) (s : WordScrambler) : WordScrambler :=
  (positionWords rnd (beforePlacement gen s) 0).2.1

/-- The placements made during `rearrange`. -/
def placements (gen rnd : Nat → Nat) (s : WordScrambler) : List Placement :=
  placementsLoop rnd (beforePlacement gen s).m_words (beforePlacement gen s) 0

/-- The unit step of direction index `d`: the displacement that the step
function `m_dirlookup[ Dir( d + 1 ) ]` applies to a cell. -/
def delta (d : Int) : Int × Int :=
  let q := m_dirlookup (Dir.ofInt (d + 1)) ⟨0, 0⟩
  (q.x, q.y)

/-- The cell `c + k * delta d`. -/
def rayCell (d : Int) (c : Coord) (k : Nat) : Coord :=
  ⟨c.x + (k : Int) * (delta d).1, c.y + (k : Int) * (delta d).2⟩

/-- The cell is inside the `m_ncol` by `m_nrow` grid of the engine. -/
def inGrid (s : WordScrambler) (c : Coord) : Prop :=
  0 ≤ c.x ∧ c.x < (s.m_ncol : Int) ∧ 0 ≤ c.y ∧ c.y < (s.m_nrow : Int)

instance (s : WordScrambler) (c : Coord) : Decidable (inGrid s c) := by
  unfold inGrid; infer_instance

/-- The cell belongs to the ray of a placement. -/
def onRay (e : Placement) (c : Coord) : Prop :=
  ∃ k, k < e.word.length ∧ c = rayCell e.first e.start k

/-- A table has `r` rows of `c` entries each. -/
def Shape {α : Type} (t : List (List α)) (r c : Nat) : Prop :=
  t.length = r ∧ ∀ i, i < r → (t.getD i []).length = c

/-- The shape of the engine established by the constructor: grid and
metadata table are `m_ncol` by `m_nrow` and every metadata entry holds its
own coordinate. -/
structure WellFormed (s : WordScrambler) : Prop where
  puzzle_shape : Shape s.m_puzzle s.m_ncol s.m_nrow
  meta_shape : Shape s.m_pos_col s.m_ncol s.m_nrow
  meta_pos : ∀ i j, i < s.m_ncol → j < s.m_nrow →
    (tget s.m_pos_col i j {}).pos = ⟨(i : Int), (j : Int)⟩

/-- Grid `h` extends grid `g` by noise only: same dimensions, every non-empty
cell of `g` is unchanged, and an empty cell of `g` is still empty or holds a
letter of `'A' .. 'Z'`. -/
def NoiseExt (g h : List (List Nat)) : Prop :=
  h.length = g.length ∧ (∀ k, (h.getD k []).length = (g.getD k []).length) ∧
  ∀ a b, (tget g a b 0 ≠ 0 → tget h a b 0 = tget g a b 0) ∧
    (tget g a b 0 = 0 → tget h a b 0 = 0 ∨ (65 ≤ tget h a b 0 ∧ tget h a b 0 ≤ 90))

/-- Length of the initial run of indices `0, 1, ...` below `fuel` on which `c`
holds, or `none` when `c` holds on all of them. -/
def scanCount (c : Nat → Bool) : Nat → Option Nat
  | 0 => none
  | fuel + 1 => if c 0 then (scanCount (fun k => c (k + 1)) fuel).map (· + 1) else some 0

/-- The condition under which the walk of `setFreeSpace` from `c` in direction
`d` takes its step number `k`: the cell `c + k * delta d` is empty and the
next cell `c + (k + 1) * delta d` is inside the grid. -/
def walkCond (s : WordScrambler) (d : Int) (c : Coord) (k : Nat) : Bool :=
  decide (inGrid s (rayCell d c (k + 1))) && cellAt s.m_puzzle (rayCell d c k) == 0

/-- Brute-force reference scan for the free space of cell `c` in direction
`d`: the number of consecutive empty cells `c, c + delta d, ...` counted from
`c` itself, a cell being counted only while the cell after it is still
inside the grid. -/
def refFreeSpace (s : WordScrambler) (d : Int) (c : Coord) : Nat :=
  ((List.range (walkFuel s)).takeWhile (walkCond s d c)).length

/-- Reference scan as the specification words it: the number of consecutive
empty cells starting one step from `c` in direction `d`, `c` itself not
counted, stopping at the first non-empty cell or at the grid boundary. -/
def specFreeSpace (s : WordScrambler) (d : Int) (c : Coord) : Nat :=
  ((List.range (walkFuel s)).takeWhile (fun k =>
    decide (inGrid s (rayCell d c (k + 1))) &&
      cellAt s.m_puzzle (rayCell d c (k + 1)) == 0)).length

/-- The free-space counts of the metadata table are sound for the current
grid: a count of `m` at cell `(i, j)` in direction `d` means that the `m`
cells from `(i, j)` on are empty and the cells after them lie inside the grid. -/
def Fresh (s : WordScrambler) : Prop :=
  ∀ i j d, i < s.m_ncol → j < s.m_nrow → d < 8 →
    ∀ k, k < (tget s.m_pos_col i j {}).freespace.getD d 0 →
      cellAt s.m_puzzle (rayCell (d : Int) ⟨(i : Int), (j : Int)⟩ k) = 0 ∧
        inGrid s (rayCell (d : Int) ⟨(i : Int), (j : Int)⟩ (k + 1))

/-- Engine `t` differs from engine `s` in `full` flags only. -/
def FullOnly (s t : WordScrambler) : Prop :=
  t.m_puzzle = s.m_puzzle ∧ t.m_words = s.m_words ∧ t.m_cap_words = s.m_cap_words ∧
  t.m_nrow = s.m_nrow ∧ t.m_ncol = s.m_ncol ∧
  t.m_pos_col.length = s.m_pos_col.length ∧
  (∀ k, (t.m_pos_col.getD k []).length = (s.m_pos_col.getD k []).length) ∧
  ∀ i j, (tget t.m_pos_col i j {}).pos = (tget s.m_pos_col i j {}).pos ∧
    (tget t.m_pos_col i j {}).freespace = (tget s.m_pos_col i j {}).freespace

/-- No word of the list contains the byte `0`. -/
def NoNul (ws : List (List Nat)) : Prop := ∀ w ∈ ws, ∀ c ∈ w, c ≠ 0

/-- The word of placement `e` is readable in grid `g` of engine `s`: the
direction index is one of `0 .. 7`, the start cell is inside the grid, and
for every `k` below the length of the word the cell `start + k * delta` is
inside the grid and holds letter `k` of the word. -/
def Readable (s : WordScrambler) (g : List (List Nat)) (e : Placement) : Prop :=
  (0 ≤ e.first ∧ e.first < 8) ∧ inGrid s e.start ∧
  ∀ k, k < e.word.length →
    inGrid s (rayCell e.first e.start k) ∧
      cellAt g (rayCell e.first e.start k) = e.word.getD k 0

/-- The read `t[i][j]`, `none` outside the table. -/
def tgetChk {α : Type} (t : List (List α)) (i j : Nat) : Option α :=
  match t[i]? with
  | none => none
  | some row => row[j]?

/-- The assignment `t[i][j] = v`, `none` outside the table. -/
def tsetChk {α : Type} (t : List (List α)) (i j : Nat) (v : α) : Option (List (List α)) :=
  if i < t.length ∧ j < (t.getD i []).length then some (tset t i j v) else none

/-- The read `m_puzzle[ pos.x ][ pos.y ]`, `none` outside the grid. -/
def cellAtChk (g : List (List Nat)) (pos : Coord) : Option Nat :=
  if 0 ≤ pos.x ∧ 0 ≤ pos.y then tgetChk g pos.x.toNat pos.y.toNat else none

/-- The write `m_puzzle[ pos.x ][ pos.y ] = c`, `none` outside the grid. -/
def putAtChk (g : List (List Nat)) (pos : Coord) (c : Nat) : Option (List (List Nat)) :=
  if 0 ≤ pos.x ∧ 0 ≤ pos.y then tsetChk g pos.x.toNat pos.y.toNat c else none

/-- The operation `a % b`, `none` for a zero modulus. -/
def modChk (a b : Nat) : Option Nat := if b = 0 then none else some (a % b)

/-- The lookup `m_dirlookup[ Dir( k ) ]`, `none` when the table has no entry
for the value (the table holds the nine values `0 .. 8`). -/
def dirChk (k : Int) : Option (Coord → Coord) :=
  if 0 ≤ k ∧ k ≤ 8 then some (m_dirlookup (Dir.ofInt k)) else none

/-- All values of a list of optional values, `none` if one is missing. -/
def allSome {α : Type} : List (Option α) → Option (List α)
  | [] => some []
  | none :: _ => none
  | some a :: rest => (allSome rest).map (fun l => a :: l)

/-- A counting loop whose body may fail. -/
def forLoopChk {σ : Type} (body : Nat → σ → Option σ) : Nat → σ → Option σ
  | 0, st => some st
  | n + 1, st => (forLoopChk body n st).bind (body n)

/-- The `while` loop of `setFreeSpace`, checked: the cell is read only when the
next position is valid, as the `&&` of the source prescribes. -/
def rayWalkChk (s : WordScrambler) (i : Nat) : Nat → Coord → Option Nat
  | 0, _ => none
  | fuel + 1, pos =>
    match dirChk ((i : Int) + 1) with
    | none => none
    | some step =>
      if isValidDir s (step pos) then
        match cellAtChk s.m_puzzle pos with
        | none => none
        | some c =>
          if c == 0 then (rayWalkChk s i fuel (step pos)).map (· + 1) else some 0
      else some 0

/-- The method `setFreeSpace`, checked. -/
def setFreeSpaceChk (s : WordScrambler) (pos_m : PosMetaData) : Option PosMetaData :=
  (allSome ((List.range 8).map (fun i => rayWalkChk s i (walkFuel s) pos_m.pos))).map
    (fun fs => { pos_m with freespace := fs })

/-- The method `computeFreeSpace`, checked. -/
def computeFreeSpaceChk (s : WordScrambler) : Option WordScrambler :=
  (forLoopChk (fun i tbl =>
    forLoopChk (fun j tbl =>
      (tgetChk tbl i j).bind (fun e =>
        (setFreeSpaceChk s e).bind (fun e1 => tsetChk tbl i j e1))) s.m_nrow tbl)
    s.m_ncol s.m_pos_col).map (fun tbl => { s with m_pos_col := tbl })

/-- The body of the loops of `addNoise`, checked. -/
def noiseCellChk (rnd : Nat → Nat) (i j : Nat) (st : List (List Nat) × Nat) :
    Option (List (List Nat) × Nat) :=
  (tgetChk st.1 i j).bind (fun c =>
    if c = 0 then (tsetChk st.1 i j (65 + rnd st.2 % 26)).map (fun g => (g, st.2 + 1))
    else some st)

/-- The method `addNoise`, checked. -/
def addNoiseChk (rnd : Nat → Nat) (s : WordScrambler) (p : Nat) :
    Option (WordScrambler × Nat) :=
  (forLoopChk (fun i st => forLoopChk (fun j st => noiseCellChk rnd i j st) s.m_nrow st)
    s.m_ncol (s.m_puzzle, p)).map (fun r => ({ s with m_puzzle := r.1 }, r.2))

/-- A draw of `std::uniform_int_distribution<int>( 1, n )`, checked: `none` for
`n = 0`, where the distribution is built with the empty range `[1, 0]` against
the precondition `a <= b` of the library. -/
def distChk (n raw : Nat) : Option Int :=
  if n = 0 then none else some (dist n raw)

/-- The `while( nrev-- )` loop of `scramble`, checked. -/
def reverseRoundsChk (gen : Nat → Nat) :
    Nat → Nat → List (List Nat) → Option (List (List Nat))
  | 0, _, ws => some ws
  | nrev + 1, p, ws =>
    match distChk ws.length (gen p) with
    | none => none
    | some draw =>
      let idx : Int := draw - 1
      if 0 ≤ idx ∧ idx < (ws.length : Int) then
        match ws[idx.toNat]? with
        | none => none
        | some w => reverseRoundsChk gen nrev (p + 1) (ws.set idx.toNat (reversed w))
      else reverseRoundsChk gen nrev (p + 1) ws

/-- The method `scramble`, checked. -/
def scrambleChk (gen : Nat → Nat) (s : WordScrambler) : Option WordScrambler :=
  match distChk s.m_words.length (gen 0) with
  | none => none
  | some draw =>
    (reverseRoundsChk gen (toSizeT draw) 1 s.m_words).map
      (fun ws => { s with m_words := sortDesc ws })

/-- The inner loop of `vacant`, checked. -/
def probeDirsChk (rnd : Nat → Nat) (fs : List Nat) (size : Nat) :
    Nat → Nat → Nat → Nat → Option (Probe × Nat)
  | 0, _, _, p => some (Probe.exhausted, p)
  | iters + 1, k, is_full, p =>
    let idx := rnd p % 8
    match fs[idx]? with
    | none => none
    | some v =>
      let is_full1 := (is_full ||| (zeroBit v <<< k)) % 256
      if is_full1 = 255 then some (Probe.saturated, p + 1)
      else if size ≤ v then some (Probe.found idx, p + 1)
      else probeDirsChk rnd fs size iters (k + 1) is_full1 (p + 1)

/-- The `while( n_trials-- )` loop of `vacant`, checked. -/
def vacantLoopChk (rnd : Nat → Nat) (size : Nat) :
    Nat → WordScrambler → Nat → Option ((Int × PosMetaData) × WordScrambler × Nat)
  | 0, s, p => some ((-1, {}), s, p)
  | n_trials + 1, s, p =>
    match modChk (rnd p) s.m_ncol, modChk (rnd (p + 1)) s.m_nrow with
    | some i, some j =>
      match tgetChk s.m_pos_col i j with
      | none => none
      | some cell =>
        if cell.full then vacantLoopChk rnd size n_trials s (p + 2)
        else
          match probeDirsChk rnd cell.freespace size 8 0 0 (p + 2) with
          | none => none
          | some (Probe.found idx, p1) => some (((idx : Int), cell), s, p1)
          | some (Probe.saturated, p1) =>
            match tsetChk s.m_pos_col i j { cell with full := true } with
            | none => none
            | some tbl => vacantLoopChk rnd size n_trials { s with m_pos_col := tbl } p1
          | some (Probe.exhausted, p1) => vacantLoopChk rnd size n_trials s p1
    | _, _ => none

/-- The loop of `insert`, checked. -/
def insertLoopChk (first : Int) :
    List Nat → Coord → List (List Nat) → Option (List (List Nat))
  | [], _, g => some g
  | c :: cs, ipos, g =>
    match putAtChk g ipos c, dirChk (first + 1) with
    | some g1, some step => insertLoopChk first cs (step ipos) g1
    | _, _ => none

/-- The method `insert`, checked. -/
def insertChk (s : WordScrambler) (pos_m : Int × PosMetaData) (word : List Nat) :
    Option WordScrambler :=
  (insertLoopChk pos_m.1 word pos_m.2.pos s.m_puzzle).map (fun g => { s with m_puzzle := g })

/-- The method `try_position`, checked. -/
def try_positionChk (rnd : Nat → Nat) (s : WordScrambler) (p : Nat) (word : List Nat) :
    Option (Bool × WordScrambler × Nat) :=
  match vacantLoopChk rnd word.length 100 s p with
  | none => none
  | some r =>
    if r.1.1 ≠ -1 then (insertChk r.2.1 r.1 word).map (fun t => (true, t, r.2.2))
    else some (false, r.2.1, r.2.2)

/-- The loop of `positionWords`, checked. -/
def positionLoopChk (rnd : Nat → Nat) :
    List (List Nat) → WordScrambler → Nat → Nat → Option (Nat × WordScrambler × Nat)
  | [], s, p, n => some (n, s, p)
  | w :: ws, s, p, n =>
    match try_positionChk rnd s p w with
    | none => none
    | some r =>
      if r.1 then
        match computeFreeSpaceChk r.2.1 with
        | none => none
        | some t => positionLoopChk rnd ws t r.2.2 (n + 1)
      else positionLoopChk rnd ws r.2.1 r.2.2 n

/-- The method `rearrange`, checked. -/
def rearrangeChk (gen rnd : Nat → Nat) (s : WordScrambler) : Option (Nat × WordScrambler) :=
  match computeFreeSpaceChk s with
  | none => none
  | some s1 =>
    match scrambleChk gen (capitalizeWords s1) with
    | none => none
    | some s3 =>
      match positionLoopChk rnd s3.m_words s3 0 0 with
      | none => none
      | some r => (addNoiseChk rnd r.2.1 r.2.2).map (fun s5 => (r.1, s5.1))

/-! ## Lemmas on grid sizing -/

theorem floorSqrtFrom_spec (n : Nat) :
    ∀ k, n < (k + 1) * (k + 1) →
      floorSqrtFrom n k * floorSqrtFrom n k ≤ n ∧
        n < (floorSqrtFrom n k + 1) * (floorSqrtFrom n k + 1) := by
  intro k
  induction k with
  | zero => intro h; simpa [floorSqrtFrom] using h
  | succ k ih =>
    intro h
    by_cases hk : (k + 1) * (k + 1) ≤ n
    · simp only [floorSqrtFrom, if_pos hk]
      exact ⟨hk, h⟩
    · simp only [floorSqrtFrom, if_neg hk]
      exact ih (by omega)

theorem floorSqrt_eq_sqrt (n : Nat) : floorSqrt n = Nat.sqrt n := by
  have h : n < (n + 1) * (n + 1) := by nlinarith
  exact Nat.eq_sqrt.mpr (floorSqrtFrom_spec n n h)

theorem floor_real_sqrt_div (a b : Nat) :
    ⌊Real.sqrt ((a : ℝ) / (b : ℝ))⌋₊ = floorSqrt (a / b) := by
  rw [floorSqrt_eq_sqrt]
  rcases Nat.eq_zero_or_pos b with hb | hb
  · subst hb
    simp
  · have hbR : (0 : ℝ) < (b : ℝ) := by exact_mod_cast hb
    have hq : (0 : ℝ) ≤ (a : ℝ) / (b : ℝ) := by positivity
    rw [Nat.floor_eq_iff (Real.sqrt_nonneg _)]
    constructor
    · rw [Real.le_sqrt (Nat.cast_nonneg _) hq]
      have h1 : ((Nat.sqrt (a / b) : ℕ) : ℝ) ^ 2 ≤ ((a / b : ℕ) : ℝ) := by
        have := Nat.sqrt_le' (a / b)
        exact_mod_cast this
      exact le_trans h1 Nat.cast_div_le
    · have hpos : (0 : ℝ) < (Nat.sqrt (a / b) : ℝ) + 1 := by positivity
      rw [Real.sqrt_lt' hpos, div_lt_iff₀ hbR]
      have h2 : a / b < (Nat.sqrt (a / b) + 1) ^ 2 := Nat.lt_succ_sqrt' (a / b)
      have h3 : a < (Nat.sqrt (a / b) + 1) ^ 2 * b := by
        rw [Nat.div_lt_iff_lt_mul hb] at h2
        exact h2
      exact_mod_cast h3

theorem measureWords_fold (words : List (List Nat)) (m t : Nat) :
    words.foldl (fun acc w => (max acc.1 w.length, acc.2 + w.length)) (m, t)
      = (max m (longest words), t + totalLen words) := by
  induction words generalizing m t with
  | nil => simp [longest, totalLen]
  | cons w ws ih =>
    simp only [List.foldl_cons, ih]
    simp [longest, totalLen, max_assoc, Nat.add_assoc]

theorem measureWords_eq (words : List (List Nat)) :
    measureWords words = (longest words, totalLen words) := by
  unfold measureWords
  rw [measureWords_fold]
  simp

theorem puzzleDim_eq (words : List (List Nat)) :
    puzzleDim words = max (longest words + 2) (floorSqrt (5 * totalLen words / 2)) := by
  simp [puzzleDim, measureWords_eq, sqrtTwoAndHalf]

theorem length_le_longest (words : List (List Nat)) :
    ∀ w ∈ words, w.length ≤ longest words := by
  induction words with
  | nil => simp
  | cons v vs ih =>
    intro w hw
    have hl : longest (v :: vs) = max v.length (longest vs) := by simp [longest]
    rw [hl]
    rcases List.mem_cons.mp hw with h | h
    · subst h; exact le_max_left _ _
    · exact le_trans (ih w h) (le_max_right _ _)

theorem longest_attained (words : List (List Nat)) (h : words ≠ []) :
    ∃ w ∈ words, w.length = longest words := by
  induction words with
  | nil => exact absurd rfl h
  | cons v vs ih =>
    have hl : longest (v :: vs) = max v.length (longest vs) := by simp [longest]
    by_cases hv : vs = []
    · subst hv
      exact ⟨v, by simp, by simp [longest]⟩
    · obtain ⟨w, hw, hwl⟩ := ih hv
      rcases le_total v.length (longest vs) with hle | hle
      · exact ⟨w, List.mem_cons_of_mem _ hw, by rw [hl, max_eq_right hle, hwl]⟩
      · exact ⟨v, by simp, by rw [hl, max_eq_left hle]⟩

theorem new_puzzle (words : List (List Nat)) :
    (new words).m_puzzle
      = List.replicate (puzzleDim words) (List.replicate (puzzleDim words) 0) := by
  simp [new, createPuzzleSkeleton, resize]

theorem new_ncol (words : List (List Nat)) : (new words).m_ncol = puzzleDim words := by
  simp [new, createPuzzleSkeleton, resize]

theorem new_nrow (words : List (List Nat)) : (new words).m_nrow = puzzleDim words := by
  simp [new, createPuzzleSkeleton, resize]

theorem sqrtTwoAndHalf_eq_floor (n : Nat) :
    sqrtTwoAndHalf n = ⌊Real.sqrt (2.5 * (n : ℝ))⌋₊ := by
  have h := floor_real_sqrt_div (5 * n) 2
  have e : ((5 * n : ℕ) : ℝ) / ((2 : ℕ) : ℝ) = 2.5 * (n : ℝ) := by
    push_cast; ring
  rw [e] at h
  rw [h, sqrtTwoAndHalf]

theorem specDimMean_eq_floor (words : List (List Nat)) :
    specDimMean words
      = max (longest words + 2)
          ⌊Real.sqrt (2.5 * ((totalLen words : ℝ) / (words.length : ℝ)))⌋₊ := by
  have h := floor_real_sqrt_div (5 * totalLen words) (2 * words.length)
  have e : ((5 * totalLen words : ℕ) : ℝ) / ((2 * words.length : ℕ) : ℝ)
      = 2.5 * ((totalLen words : ℝ) / (words.length : ℝ)) := by
    push_cast
    rcases Nat.eq_zero_or_pos words.length with h0 | h0
    · simp [h0]
    · have : (words.length : ℝ) ≠ 0 := by exact_mod_cast h0.ne'
      field_simp
      ring
  rw [e] at h
  rw [specDimMean, h]

/-! ## Claims on grid sizing -/

/-- C1: for every non-empty word list the skeleton built by the constructor is a
square grid whose dimension is at least the length of the longest word plus
two (some word has that length and every word is at most that long), all of
its cells hold the empty sentinel, and for the list "cat", "dog" the dimension
is at least 5. -/
theorem createPuzzleSkeleton_sizing (words : List (List Nat)) (h : words ≠ []) :
    (∃ w ∈ words, w.length = longest words) ∧
    (∀ w ∈ words, w.length + 2 ≤ (new words).m_ncol) ∧
    longest words + 2 ≤ (new words).m_ncol ∧
    (new words).m_nrow = (new words).m_ncol ∧
    (new words).m_puzzle
      = List.replicate (new words).m_ncol (List.replicate (new words).m_ncol 0) ∧
    5 ≤ (new [[99, 97, 116], [100, 111, 103]]).m_ncol := by
  have hd : longest words + 2 ≤ puzzleDim words := by
    rw [puzzleDim_eq]; exact le_max_left _ _
  refine ⟨longest_attained words h, ?_, ?_, ?_, ?_, ?_⟩
  · intro w hw
    rw [new_ncol]
    have := length_le_longest words w hw
    omega
  · rw [new_ncol]; exact hd
  · rw [new_ncol, new_nrow]
  · rw [new_ncol, new_puzzle]
  · decide

/-- Witness of C1 at the word list "cat", "dog". -/
theorem createPuzzleSkeleton_sizing_witness :
    (∀ w ∈ [[99, 97, 116], [100, 111, 103]],
      w.length + 2 ≤ (new [[99, 97, 116], [100, 111, 103]]).m_ncol) ∧
    (new [[99, 97, 116], [100, 111, 103]]).m_puzzle
      = List.replicate 5 (List.replicate 5 0) :=
  ⟨(createPuzzleSkeleton_sizing [[99, 97, 116], [100, 111, 103]] (by decide)).2.1,
    by decide⟩

/-- C2, as stated, fails: for eight one-letter words the mean length is 1, so
the stated formula gives max(3, 1) = 3, while the constructor builds a grid of
dimension 4. -/
theorem puzzleDim_ne_specDimMean :
    (new [[97], [98], [99], [100], [101], [102], [103], [104]]).m_ncol = 4 ∧
    specDimMean [[97], [98], [99], [100], [101], [102], [103], [104]] = 3 ∧
    (new [[97], [98], [99], [100], [101], [102], [103], [104]]).m_ncol
      ≠ specDimMean [[97], [98], [99], [100], [101], [102], [103], [104]] := by
  decide

/-- C2, amended: the dimension equals the larger of the longest length plus
two and the integer part of the square root of 2.5 times the sum of the word
lengths (the accumulator `avg_len` is never divided by the number of words). -/
theorem createPuzzleSkeleton_dim_eq (words : List (List Nat)) :
    (new words).m_ncol
      = max (longest words + 2) ⌊Real.sqrt (2.5 * (totalLen words : ℝ))⌋₊ ∧
    (new words).m_nrow = (new words).m_ncol ∧
    (new words).m_puzzle.length = (new words).m_ncol := by
  refine ⟨?_, ?_, ?_⟩
  · rw [new_ncol, puzzleDim_eq, ← sqrtTwoAndHalf_eq_floor, sqrtTwoAndHalf]
  · rw [new_ncol, new_nrow]
  · rw [new_ncol, new_puzzle]; simp

/-! ## Lemmas on tables and loops -/

theorem tget_tset_ne {α : Type} (t : List (List α)) (i j a b : Nat) (v d : α)
    (h : ¬ (a = i ∧ b = j)) : tget (tset t i j v) a b d = tget t a b d := by
  unfold tget tset
  by_cases ha : a = i
  · subst ha
    have hb : ¬ b = j := fun hb => h ⟨rfl, hb⟩
    by_cases hlt : a < t.length
    · simp [List.getD_eq_getElem?_getD, List.getElem?_set, hlt, Ne.symm hb]
    · have hn : t[a]? = none := List.getElem?_eq_none (Nat.le_of_not_lt hlt)
      simp [List.getD_eq_getElem?_getD, List.getElem?_set, hlt, hn]
  · simp [List.getD_eq_getElem?_getD, List.getElem?_set, Ne.symm ha]

theorem tget_tset_eq {α : Type} (t : List (List α)) (i j : Nat) (v d : α)
    (hi : i < t.length) (hj : j < (t.getD i []).length) :
    tget (tset t i j v) i j d = v := by
  unfold tget tset
  simp [List.getD_eq_getElem?_getD, List.getElem?_set, hi] at hj ⊢
  simp [hj]

theorem tset_length {α : Type} (t : List (List α)) (i j : Nat) (v : α) :
    (tset t i j v).length = t.length := by
  simp [tset]

theorem tset_row_length {α : Type} (t : List (List α)) (i j k : Nat) (v : α) :
    ((tset t i j v).getD k []).length = (t.getD k []).length := by
  unfold tset
  by_cases hk : i = k
  · subst hk
    by_cases hlt : i < t.length
    · simp [List.getD_eq_getElem?_getD, List.getElem?_set, hlt]
    · have hn : t[i]? = none := List.getElem?_eq_none (Nat.le_of_not_lt hlt)
      simp [List.getD_eq_getElem?_getD, List.getElem?_set, hlt, hn]
  · simp [List.getD_eq_getElem?_getD, List.getElem?_set, hk]

theorem shape_tset {α : Type} {t : List (List α)} {r c : Nat} (h : Shape t r c)
    (i j : Nat) (v : α) : Shape (tset t i j v) r c := by
  refine ⟨by rw [tset_length]; exact h.1, ?_⟩
  intro k hk
  rw [tset_row_length]
  exact h.2 k hk

theorem forLoop_invariant {σ : Type} (body : Nat → σ → σ) (P : Nat → σ → Prop)
    (n : Nat) (init : σ) (h0 : P 0 init)
    (hstep : ∀ k st, k < n → P k st → P (k + 1) (body k st)) :
    P n (forLoop body n init) := by
  induction n with
  | zero => exact h0
  | succ n ih =>
    exact hstep n _ (Nat.lt_succ_self n)
      (ih (fun k st hk hp => hstep k st (Nat.lt_succ_of_lt hk) hp))

/-! ## Noise fill -/

theorem noiseExt_refl (g : List (List Nat)) : NoiseExt g g :=
  ⟨rfl, fun _ => rfl, fun _ _ => ⟨fun _ => rfl, fun h => Or.inl h⟩⟩

theorem noiseExt_trans {g h k : List (List Nat)} (h1 : NoiseExt g h) (h2 : NoiseExt h k) :
    NoiseExt g k := by
  refine ⟨h2.1.trans h1.1, fun i => (h2.2.1 i).trans (h1.2.1 i), ?_⟩
  intro a b
  constructor
  · intro hne
    have e1 := (h1.2.2 a b).1 hne
    have e2 := (h2.2.2 a b).1 (by rw [e1]; exact hne)
    rw [e2, e1]
  · intro h0
    rcases (h1.2.2 a b).2 h0 with e | e
    · exact (h2.2.2 a b).2 e
    · have hne : tget h a b 0 ≠ 0 := by omega
      right
      rw [(h2.2.2 a b).1 hne]
      exact e

theorem noiseCell_ext (rnd : Nat → Nat) (i j : Nat) (st : List (List Nat) × Nat) :
    NoiseExt st.1 (noiseCell rnd i j st).1 := by
  unfold noiseCell
  by_cases h : tget st.1 i j 0 = 0
  · rw [if_pos h]
    refine ⟨tset_length _ _ _ _, fun k => tset_row_length _ _ _ _ _, ?_⟩
    intro a b
    by_cases hab : a = i ∧ b = j
    · obtain ⟨rfl, rfl⟩ := hab
      refine ⟨fun hne => absurd h hne, fun _ => ?_⟩
      by_cases hin : a < st.1.length ∧ b < (st.1.getD a []).length
      · right
        simp only []
        rw [tget_tset_eq _ _ _ _ _ hin.1 hin.2]
        omega
      · left
        have hsame : tset st.1 a b (65 + rnd st.2 % 26) = st.1 := by
          unfold tset
          by_cases ha : a < st.1.length
          · have hb : ¬ b < (st.1.getD a []).length := fun hb => hin ⟨ha, hb⟩
            have hrow : (st.1.getD a []).set b (65 + rnd st.2 % 26) = st.1.getD a [] :=
              List.set_eq_of_length_le (Nat.le_of_not_lt hb)
            rw [hrow]
            apply List.ext_getElem?
            intro n
            by_cases hn : a = n
            · subst hn
              simp [List.getElem?_set, ha, List.getD_eq_getElem?_getD]
            · simp [List.getElem?_set, hn]
          · exact List.set_eq_of_length_le (Nat.le_of_not_lt ha)
        simp only []
        rw [hsame]
        exact h
    · simp only []
      rw [tget_tset_ne _ _ _ _ _ _ _ hab]
      exact ⟨fun _ => rfl, fun h0 => Or.inl h0⟩
  · rw [if_neg h]
    exact noiseExt_refl _

theorem noiseCell_filled (rnd : Nat → Nat) (i j : Nat) (st : List (List Nat) × Nat)
    (hi : i < st.1.length) (hj : j < (st.1.getD i []).length) :
    tget (noiseCell rnd i j st).1 i j 0 ≠ 0 := by
  unfold noiseCell
  by_cases h : tget st.1 i j 0 = 0
  · rw [if_pos h]
    simp only []
    rw [tget_tset_eq _ _ _ _ _ hi hj]
    omega
  · rw [if_neg h]
    exact h

theorem noiseExt_keeps_filled {g h : List (List Nat)} (e : NoiseExt g h) {a b : Nat}
    (hne : tget g a b 0 ≠ 0) : tget h a b 0 ≠ 0 := by
  rw [(e.2.2 a b).1 hne]
  exact hne

/-- The row loop of `addNoise` on row `i`: the grid is extended by noise only
and the first `n` cells of the row are filled afterwards. -/
theorem noiseRow_spec (rnd : Nat → Nat) (i n : Nat) (st : List (List Nat) × Nat) :
    NoiseExt st.1 (forLoop (fun j st => noiseCell rnd i j st) n st).1 ∧
    (i < st.1.length → ∀ b, b < n → b < (st.1.getD i []).length →
      tget (forLoop (fun j st => noiseCell rnd i j st) n st).1 i b 0 ≠ 0) := by
  induction n with
  | zero => exact ⟨noiseExt_refl _, fun _ b hb => absurd hb (Nat.not_lt_zero b)⟩
  | succ n ih =>
    have hstep := noiseCell_ext rnd i n (forLoop (fun j st => noiseCell rnd i j st) n st)
    refine ⟨noiseExt_trans ih.1 hstep, ?_⟩
    intro hi b hb hbl
    rcases Nat.lt_succ_iff_lt_or_eq.mp hb with hlt | heq
    · exact noiseExt_keeps_filled hstep (ih.2 hi b hlt hbl)
    · subst heq
      apply noiseCell_filled
      · rw [ih.1.1]; exact hi
      · rw [ih.1.2.1]; exact hbl

/-- The two loops of `addNoise` over the first `m` rows. -/
theorem noiseRows_spec (rnd : Nat → Nat) (c m : Nat) (st : List (List Nat) × Nat) :
    NoiseExt st.1
      (forLoop (fun i st => forLoop (fun j st => noiseCell rnd i j st) c st) m st).1 ∧
    (∀ a b, a < m → a < st.1.length → b < c → b < (st.1.getD a []).length →
      tget (forLoop (fun i st => forLoop (fun j st => noiseCell rnd i j st) c st) m st).1
        a b 0 ≠ 0) := by
  induction m with
  | zero => exact ⟨noiseExt_refl _, fun a b ha => absurd ha (Nat.not_lt_zero a)⟩
  | succ m ih =>
    have hrow := noiseRow_spec rnd m c
      (forLoop (fun i st => forLoop (fun j st => noiseCell rnd i j st) c st) m st)
    refine ⟨noiseExt_trans ih.1 hrow.1, ?_⟩
    intro a b ha hal hb hbl
    rcases Nat.lt_succ_iff_lt_or_eq.mp ha with hlt | heq
    · exact noiseExt_keeps_filled hrow.1 (ih.2 a b hlt hal hb hbl)
    · subst heq
      apply hrow.2
      · rw [ih.1.1]; exact hal
      · exact hb
      · rw [ih.1.2.1]; exact hbl

theorem addNoise_ext (rnd : Nat → Nat) (s : WordScrambler) (p : Nat) :
    NoiseExt s.m_puzzle (addNoise rnd s p).1.m_puzzle :=
  (noiseRows_spec rnd s.m_nrow s.m_ncol (s.m_puzzle, p)).1

theorem addNoise_filled (rnd : Nat → Nat) (s : WordScrambler) (p : Nat)
    (hs : Shape s.m_puzzle s.m_ncol s.m_nrow) (a b : Nat) (ha : a < s.m_ncol)
    (hb : b < s.m_nrow) : tget (addNoise rnd s p).1.m_puzzle a b 0 ≠ 0 := by
  apply (noiseRows_spec rnd s.m_nrow s.m_ncol (s.m_puzzle, p)).2 a b ha
  · show a < s.m_puzzle.length
    rw [hs.1]; exact ha
  · exact hb
  · show b < (s.m_puzzle.getD a []).length
    rw [hs.2 a ha]; exact hb

/-- C5: `addNoise` leaves every non-empty cell unchanged, for every grid and
every random stream: each cell that held a non-sentinel character holds the
same character afterwards, and for every grid, with or without a letter, the
grid keeps its dimensions (row count, length of every row, `m_ncol` and
`m_nrow`). -/
theorem addNoise_keeps_letters (rnd : Nat → Nat) (s : WordScrambler) (p : Nat) :
    (∀ a b, tget s.m_puzzle a b 0 ≠ 0 →
      tget (addNoise rnd s p).1.m_puzzle a b 0 = tget s.m_puzzle a b 0) ∧
    (addNoise rnd s p).1.m_puzzle.length = s.m_puzzle.length ∧
    (∀ k, ((addNoise rnd s p).1.m_puzzle.getD k []).length = (s.m_puzzle.getD k []).length) ∧
    (addNoise rnd s p).1.m_ncol = s.m_ncol ∧ (addNoise rnd s p).1.m_nrow = s.m_nrow := by
  have e := addNoise_ext rnd s p
  exact ⟨fun a b h => (e.2.2 a b).1 h, e.1, e.2.1, rfl, rfl⟩

/-- Witness of C5: a 2 by 2 grid with the letter `'Q'` in cell (0, 1) keeps the
letter, and an all-empty 2 by 3 grid keeps its two rows of three cells. -/
theorem addNoise_keeps_letters_witness :
    tget (addNoise (fun n => n) ⟨[[0, 81], [0, 0]], [], [], 2, 2, []⟩ 0).1.m_puzzle 0 1 0
      = 81 ∧
    (addNoise (fun n => n) ⟨[[0, 0, 0], [0, 0, 0]], [], [], 3, 2, []⟩ 0).1.m_puzzle.length
      = 2 ∧
    ((addNoise (fun n => n) ⟨[[0, 0, 0], [0, 0, 0]], [], [], 3, 2, []⟩ 0).1.m_puzzle.getD
      1 []).length = 3 :=
  ⟨(addNoise_keeps_letters (fun n => n) ⟨[[0, 81], [0, 0]], [], [], 2, 2, []⟩ 0).1 0 1
      (by decide),
    (addNoise_keeps_letters (fun n => n) ⟨[[0, 0, 0], [0, 0, 0]], [], [], 3, 2, []⟩ 0).2.1,
    (addNoise_keeps_letters (fun n => n) ⟨[[0, 0, 0], [0, 0, 0]], [], [], 3, 2, []⟩ 0).2.2.1
      1⟩

/-! ## Directions -/

theorem dir_cases (d : Int) (h0 : 0 ≤ d) (h8 : d < 8) :
    d = 0 ∨ d = 1 ∨ d = 2 ∨ d = 3 ∨ d = 4 ∨ d = 5 ∨ d = 6 ∨ d = 7 := by omega

theorem step_eq_rayCell (d : Int) (h0 : 0 ≤ d) (h8 : d < 8) (pos : Coord) :
    m_dirlookup (Dir.ofInt (d + 1)) pos = rayCell d pos 1 := by
  rcases dir_cases d h0 h8 with h | h | h | h | h | h | h | h <;> subst h <;>
    simp [Dir.ofInt, m_dirlookup, rayCell, delta] <;> omega

theorem delta_bounds (d : Int) (h0 : 0 ≤ d) (h8 : d < 8) :
    (-1 ≤ (delta d).1 ∧ (delta d).1 ≤ 1) ∧ (-1 ≤ (delta d).2 ∧ (delta d).2 ≤ 1) ∧
      ((delta d).1 ≠ 0 ∨ (delta d).2 ≠ 0) := by
  rcases dir_cases d h0 h8 with h | h | h | h | h | h | h | h <;> subst h <;> decide

theorem rayCell_zero (d : Int) (c : Coord) : rayCell d c 0 = c := by
  simp [rayCell]

theorem rayCell_succ (d : Int) (c : Coord) (k : Nat) :
    rayCell d (rayCell d c 1) k = rayCell d c (k + 1) := by
  simp only [rayCell, Coord.mk.injEq]
  constructor <;> push_cast <;> ring

theorem rayCell_injective (d : Int) (h0 : 0 ≤ d) (h8 : d < 8) (c : Coord) (k m : Nat)
    (h : rayCell d c k = rayCell d c m) : k = m := by
  obtain ⟨⟨a1, a2⟩, ⟨b1, b2⟩, hne⟩ := delta_bounds d h0 h8
  simp only [rayCell, Coord.mk.injEq] at h
  obtain ⟨hx, hy⟩ := h
  have hx1 : ((k : Int) - (m : Int)) * (delta d).1 = 0 := by linarith
  have hy1 : ((k : Int) - (m : Int)) * (delta d).2 = 0 := by linarith
  rcases hne with hn | hn
  · rcases mul_eq_zero.mp hx1 with e | e
    · omega
    · exact absurd e hn
  · rcases mul_eq_zero.mp hy1 with e | e
    · omega
    · exact absurd e hn

theorem isValidDir_eq (s : WordScrambler) (pos : Coord) :
    isValidDir s pos = decide (inGrid s pos) := by
  unfold isValidDir inGrid
  by_cases h1 : 0 ≤ pos.x <;> by_cases h2 : pos.x < (s.m_ncol : Int) <;>
    by_cases h3 : 0 ≤ pos.y <;> by_cases h4 : pos.y < (s.m_nrow : Int) <;>
    simp [h1, h2, h3, h4]

/-! ## Free-space index -/

theorem scanCount_eq (c : Nat → Bool) (fuel m : Nat) (hlt : m < fuel)
    (hall : ∀ k, k < m → c k = true) (hm : c m = false) : scanCount c fuel = some m := by
  induction fuel generalizing c m with
  | zero => exact absurd hlt (Nat.not_lt_zero m)
  | succ fuel ih =>
    cases m with
    | zero => simp [scanCount, hm]
    | succ m =>
      have h0 : c 0 = true := hall 0 (Nat.succ_pos m)
      have hrec := ih (fun k => c (k + 1)) m (Nat.lt_of_succ_lt_succ hlt)
        (fun k hk => hall (k + 1) (Nat.succ_lt_succ hk)) hm
      simp [scanCount, h0, hrec]

theorem takeWhile_range_length (c : Nat → Bool) (n m : Nat) (hlt : m < n)
    (hall : ∀ k, k < m → c k = true) (hm : c m = false) :
    ((List.range n).takeWhile c).length = m := by
  induction n generalizing c m with
  | zero => exact absurd hlt (Nat.not_lt_zero m)
  | succ n ih =>
    rw [List.range_succ_eq_map]
    cases m with
    | zero => simp [List.takeWhile_cons, hm]
    | succ m =>
      have h0 : c 0 = true := hall 0 (Nat.succ_pos m)
      have hrec := ih (fun k => c (k + 1)) m (Nat.lt_of_succ_lt_succ hlt)
        (fun k hk => hall (k + 1) (Nat.succ_lt_succ hk)) hm
      rw [List.takeWhile_cons, if_pos h0, List.takeWhile_map, List.length_cons,
        List.length_map]
      have hfun : (c ∘ Nat.succ) = (fun k => c (k + 1)) := rfl
      rw [hfun, hrec]

theorem rayWalk_eq_scanCount (s : WordScrambler) (d : Nat) (hd : d < 8) (fuel : Nat)
    (pos : Coord) : rayWalk s d fuel pos = scanCount (walkCond s (d : Int) pos) fuel := by
  have h0 : (0 : Int) ≤ (d : Int) := Int.natCast_nonneg d
  have h8 : (d : Int) < 8 := by exact_mod_cast hd
  induction fuel generalizing pos with
  | zero => rfl
  | succ fuel ih =>
    have hfun : (fun k => walkCond s (d : Int) pos (k + 1))
        = walkCond s (d : Int) (rayCell (d : Int) pos 1) := by
      funext k
      simp [walkCond, rayCell_succ]
    simp only [rayWalk, scanCount]
    rw [step_eq_rayCell _ h0 h8, ih, hfun]
    simp [walkCond, isValidDir_eq, rayCell_zero]

/-- Some step of the walk is refused within `walkFuel s` steps: the cells of a
ray cannot stay inside the grid for more steps than the grid is wide. -/
theorem walkCond_stops (s : WordScrambler) (d : Int) (h0 : 0 ≤ d) (h8 : d < 8)
    (pos : Coord) : ∃ m, m < walkFuel s ∧ walkCond s d pos m = false := by
  by_contra hcon
  have hall : ∀ m, m < walkFuel s → walkCond s d pos m = true := by
    intro m hm
    by_contra hf
    exact hcon ⟨m, hm, by simpa using hf⟩
  have hfirst := hall 0 (by unfold walkFuel; omega)
  have hlast := hall (s.m_ncol + s.m_nrow) (by unfold walkFuel; omega)
  simp only [walkCond, Bool.and_eq_true, decide_eq_true_eq, inGrid, rayCell] at hfirst hlast
  obtain ⟨⟨a1, a2⟩, ⟨b1, b2⟩, hne⟩ := delta_bounds d h0 h8
  obtain ⟨⟨f1, f2, f3, f4⟩, _⟩ := hfirst
  obtain ⟨⟨l1, l2, l3, l4⟩, _⟩ := hlast
  push_cast at f1 f2 f3 f4 l1 l2 l3 l4
  generalize (delta d).1 = dx at *
  generalize (delta d).2 = dy at *
  have hx : dx = -1 ∨ dx = 0 ∨ dx = 1 := by omega
  have hy : dy = -1 ∨ dy = 0 ∨ dy = 1 := by omega
  rcases hx with rfl | rfl | rfl <;> rcases hy with rfl | rfl | rfl <;> omega

/-- The walk of `setFreeSpace` ends within its fuel, at the first step `m` that
is refused; `m` is the value of the brute-force reference scan. -/
theorem rayWalk_spec (s : WordScrambler) (d : Nat) (hd : d < 8) (pos : Coord) :
    ∃ m, rayWalk s d (walkFuel s) pos = some m ∧ m < walkFuel s ∧
      (∀ k, k < m → walkCond s (d : Int) pos k = true) ∧
      walkCond s (d : Int) pos m = false ∧ refFreeSpace s (d : Int) pos = m := by
  have h0 : (0 : Int) ≤ (d : Int) := Int.natCast_nonneg d
  have h8 : (d : Int) < 8 := by exact_mod_cast hd
  classical
  have hex : ∃ m, m < walkFuel s ∧ walkCond s (d : Int) pos m = false :=
    walkCond_stops s d h0 h8 pos
  refine ⟨Nat.find hex, ?_, (Nat.find_spec hex).1, ?_, (Nat.find_spec hex).2, ?_⟩
  · rw [rayWalk_eq_scanCount s d hd]
    apply scanCount_eq _ _ _ (Nat.find_spec hex).1 _ (Nat.find_spec hex).2
    intro k hk
    have := Nat.find_min hex hk
    by_contra hf
    exact this ⟨lt_trans hk (Nat.find_spec hex).1, by simpa using hf⟩
  · intro k hk
    have := Nat.find_min hex hk
    by_contra hf
    exact this ⟨lt_trans hk (Nat.find_spec hex).1, by simpa using hf⟩
  · apply takeWhile_range_length _ _ _ (Nat.find_spec hex).1 _ (Nat.find_spec hex).2
    intro k hk
    have := Nat.find_min hex hk
    by_contra hf
    exact this ⟨lt_trans hk (Nat.find_spec hex).1, by simpa using hf⟩

/-- The loop of `setFreeSpace` terminates in every direction. -/
theorem rayWalk_terminates (s : WordScrambler) (d : Nat) (hd : d < 8) (pos : Coord) :
    (rayWalk s d (walkFuel s) pos).isSome = true := by
  obtain ⟨m, hm, _⟩ := rayWalk_spec s d hd pos
  simp [hm]

theorem setFreeSpace_freespace (s : WordScrambler) (pos_m : PosMetaData) (d : Nat)
    (hd : d < 8) :
    (setFreeSpace s pos_m).freespace.getD d 0 = refFreeSpace s (d : Int) pos_m.pos := by
  obtain ⟨m, hm, _, _, _, href⟩ := rayWalk_spec s d hd pos_m.pos
  simp [setFreeSpace, List.getD_eq_getElem?_getD, List.getElem?_range hd, hd, hm, href]

/-- A row loop that replaces entry `(i, j)` by `F` of itself for `j < n`. -/
theorem rowLoop_spec {α : Type} (F : α → α) (dflt : α) (i r c n : Nat)
    (tbl : List (List α)) (hs : Shape tbl r c) (hi : i < r) (hn : n ≤ c) :
    Shape (forLoop (fun j t => tset t i j (F (tget t i j dflt))) n tbl) r c ∧
    ∀ a b, tget (forLoop (fun j t => tset t i j (F (tget t i j dflt))) n tbl) a b dflt
      = if a = i ∧ b < n then F (tget tbl a b dflt) else tget tbl a b dflt := by
  induction n with
  | zero => exact ⟨hs, fun a b => by simp [forLoop]⟩
  | succ n ih =>
    obtain ⟨hsh, hget⟩ := ih (Nat.le_of_succ_le hn)
    refine ⟨shape_tset hsh _ _ _, ?_⟩
    intro a b
    simp only [forLoop]
    by_cases hab : a = i ∧ b = n
    · obtain ⟨rfl, rfl⟩ := hab
      rw [tget_tset_eq _ _ _ _ _ (by rw [hsh.1]; exact hi)
        (by rw [hsh.2 a hi]; exact hn), hget]
      simp
    · rw [tget_tset_ne _ _ _ _ _ _ _ hab, hget]
      by_cases ha : a = i
      · have hb : b ≠ n := fun hb => hab ⟨ha, hb⟩
        have hiff : (b < n + 1) ↔ (b < n) := by omega
        simp [ha, hiff]
      · simp [ha]

/-- The nested loops that replace every entry `(i, j)` with `i < m`, `j < c` by
`F` of itself. -/
theorem tableLoop_spec {α : Type} (F : α → α) (dflt : α) (r c m : Nat)
    (tbl : List (List α)) (hs : Shape tbl r c) (hm : m ≤ r) :
    Shape (forLoop (fun i t =>
      forLoop (fun j t => tset t i j (F (tget t i j dflt))) c t) m tbl) r c ∧
    ∀ a b, tget (forLoop (fun i t =>
        forLoop (fun j t => tset t i j (F (tget t i j dflt))) c t) m tbl) a b dflt
      = if a < m ∧ b < c then F (tget tbl a b dflt) else tget tbl a b dflt := by
  induction m with
  | zero => exact ⟨hs, fun a b => by simp [forLoop]⟩
  | succ m ih =>
    obtain ⟨hsh, hget⟩ := ih (Nat.le_of_succ_le hm)
    have hrow := rowLoop_spec F dflt m r c c _ hsh hm (Nat.le_refl c)
    refine ⟨hrow.1, ?_⟩
    intro a b
    simp only [forLoop]
    rw [hrow.2 a b, hget]
    by_cases ha : a = m
    · subst ha
      by_cases hb : b < c
      · simp [hb]
      · simp [hb]
    · by_cases hlt : a < m
      · have h1 : a < m + 1 := Nat.lt_succ_of_lt hlt
        simp [ha, hlt, h1]
      · have h1 : ¬ a < m + 1 := by omega
        simp [ha, hlt, h1]

theorem computeFreeSpace_entry (s : WordScrambler) (hs : Shape s.m_pos_col s.m_ncol s.m_nrow)
    (i j : Nat) (hi : i < s.m_ncol) (hj : j < s.m_nrow) :
    tget (computeFreeSpace s).m_pos_col i j {} = setFreeSpace s (tget s.m_pos_col i j {}) := by
  have h := (tableLoop_spec (setFreeSpace s) {} s.m_ncol s.m_nrow s.m_ncol s.m_pos_col hs
    (Nat.le_refl _)).2 i j
  simp only [hi, hj, and_self, if_true] at h
  exact h

theorem computeFreeSpace_shape (s : WordScrambler)
    (hs : Shape s.m_pos_col s.m_ncol s.m_nrow) :
    Shape (computeFreeSpace s).m_pos_col s.m_ncol s.m_nrow :=
  (tableLoop_spec (setFreeSpace s) {} s.m_ncol s.m_nrow s.m_ncol s.m_pos_col hs
    (Nat.le_refl _)).1

theorem computeFreeSpace_wellFormed (s : WordScrambler) (h : WellFormed s) :
    WellFormed (computeFreeSpace s) := by
  refine ⟨h.puzzle_shape, computeFreeSpace_shape s h.meta_shape, ?_⟩
  intro i j hi hj
  have e := computeFreeSpace_entry s h.meta_shape i j hi hj
  rw [e]
  exact h.meta_pos i j hi hj

/-- After `computeFreeSpace` every free-space count is the value of the
reference scan on the current grid. -/
theorem computeFreeSpace_freespace (s : WordScrambler) (h : WellFormed s) (i j d : Nat)
    (hi : i < s.m_ncol) (hj : j < s.m_nrow) (hd : d < 8) :
    (tget (computeFreeSpace s).m_pos_col i j {}).freespace.getD d 0
      = refFreeSpace s (d : Int) ⟨(i : Int), (j : Int)⟩ := by
  rw [computeFreeSpace_entry s h.meta_shape i j hi hj, setFreeSpace_freespace s _ d hd,
    h.meta_pos i j hi hj]

theorem refFreeSpace_sound (s : WordScrambler) (d : Nat) (hd : d < 8) (c : Coord) (k : Nat)
    (hk : k < refFreeSpace s (d : Int) c) :
    cellAt s.m_puzzle (rayCell (d : Int) c k) = 0 ∧ inGrid s (rayCell (d : Int) c (k + 1)) := by
  obtain ⟨m, _, _, hall, _, href⟩ := rayWalk_spec s d hd c
  rw [href] at hk
  have := hall k hk
  simp only [walkCond, Bool.and_eq_true, decide_eq_true_eq, beq_iff_eq] at this
  exact ⟨this.2, this.1⟩

theorem computeFreeSpace_fresh (s : WordScrambler) (h : WellFormed s) :
    Fresh (computeFreeSpace s) := by
  intro i j d hi hj hd k hk
  have e := computeFreeSpace_freespace s h i j d hi hj hd
  have hk1 : k < refFreeSpace s (d : Int) ⟨(i : Int), (j : Int)⟩ := by
    rw [← e]; exact hk
  exact refFreeSpace_sound s d hd _ k hk1

theorem new_wellFormed (words : List (List Nat)) : WellFormed (new words) := by
  have hp := new_puzzle words
  have hc := new_ncol words
  have hr := new_nrow words
  refine ⟨?_, ?_, ?_⟩
  · rw [hp, hc, hr]
    refine ⟨by simp, ?_⟩
    intro i hi
    simp [List.getD_eq_getElem?_getD, List.getElem?_replicate, hi]
  · rw [hc, hr]
    refine ⟨by simp [new, createPuzzleSkeleton], ?_⟩
    intro i hi
    simp [new, createPuzzleSkeleton, List.getD_eq_getElem?_getD, List.getElem?_range hi, hi]
  · intro i j hi hj
    rw [hc] at hi
    rw [hr] at hj
    simp [new, createPuzzleSkeleton, tget, List.getD_eq_getElem?_getD,
      List.getElem?_range hi, List.getElem?_range hj, hi, hj]

theorem refFreeSpace_maximal (s : WordScrambler) (d : Nat) (hd : d < 8) (c : Coord) :
    ¬ (cellAt s.m_puzzle (rayCell (d : Int) c (refFreeSpace s (d : Int) c)) = 0 ∧
      inGrid s (rayCell (d : Int) c (refFreeSpace s (d : Int) c + 1))) := by
  obtain ⟨m, _, _, _, hstop, href⟩ := rayWalk_spec s d hd c
  rw [href]
  intro hcon
  have : walkCond s (d : Int) c m = true := by
    simp only [walkCond, Bool.and_eq_true, decide_eq_true_eq, beq_iff_eq]
    exact ⟨hcon.2, hcon.1⟩
  rw [hstop] at this
  exact Bool.noConfusion this

/-! ## Insertion -/

theorem cellAt_putAt_ne (g : List (List Nat)) (pos q : Coord) (c : Nat) (h : q ≠ pos) :
    cellAt (putAt g pos c) q = cellAt g q := by
  unfold cellAt putAt
  by_cases hp : 0 ≤ pos.x ∧ 0 ≤ pos.y
  · by_cases hq : 0 ≤ q.x ∧ 0 ≤ q.y
    · simp only [if_pos hp, if_pos hq]
      apply tget_tset_ne
      rintro ⟨hx, hy⟩
      apply h
      cases q with
      | mk qx qy =>
        cases pos with
        | mk px py =>
          simp only [Coord.mk.injEq]
          simp only at hx hy hp hq
          omega
    · simp [hq]
  · simp [hp]

theorem cellAt_putAt_eq (g : List (List Nat)) (r n : Nat) (hs : Shape g r n) (pos : Coord)
    (c : Nat) (hx0 : 0 ≤ pos.x) (hx : pos.x < (r : Int)) (hy0 : 0 ≤ pos.y)
    (hy : pos.y < (n : Int)) : cellAt (putAt g pos c) pos = c := by
  unfold cellAt putAt
  rw [if_pos ⟨hx0, hy0⟩, if_pos ⟨hx0, hy0⟩]
  have h1 : pos.x.toNat < r := by omega
  have h2 : pos.y.toNat < n := by omega
  apply tget_tset_eq
  · rw [hs.1]; exact h1
  · rw [hs.2 _ h1]; exact h2

theorem putAt_shape (g : List (List Nat)) (r n : Nat) (hs : Shape g r n) (pos : Coord)
    (c : Nat) : Shape (putAt g pos c) r n := by
  unfold putAt
  by_cases hp : 0 ≤ pos.x ∧ 0 ≤ pos.y
  · rw [if_pos hp]; exact shape_tset hs _ _ _
  · rw [if_neg hp]; exact hs

theorem insertLoop_shape (d : Int) (w : List Nat) (pos : Coord) (g : List (List Nat))
    (r n : Nat) (hs : Shape g r n) : Shape (insertLoop d w pos g) r n := by
  induction w generalizing pos g with
  | nil => exact hs
  | cons c cs ih => exact ih _ _ (putAt_shape g r n hs pos c)

/-- The loop of `insert` changes no cell off the ray of the word. -/
theorem insertLoop_frame (d : Int) (h0 : 0 ≤ d) (h8 : d < 8) (w : List Nat) (pos : Coord)
    (g : List (List Nat)) (q : Coord) (hq : ∀ k, k < w.length → q ≠ rayCell d pos k) :
    cellAt (insertLoop d w pos g) q = cellAt g q := by
  induction w generalizing pos g with
  | nil => rfl
  | cons c cs ih =>
    simp only [insertLoop]
    rw [step_eq_rayCell d h0 h8, ih]
    · apply cellAt_putAt_ne
      have := hq 0 (by simp)
      rwa [rayCell_zero] at this
    · intro k hk
      rw [rayCell_succ]
      exact hq (k + 1) (by simpa using hk)

/-- The loop of `insert` writes letter `k` of the word to cell `k` of the ray,
when the ray lies inside the grid. -/
theorem insertLoop_read (d : Int) (h0 : 0 ≤ d) (h8 : d < 8) (w : List Nat) (pos : Coord)
    (g : List (List Nat)) (r n : Nat) (hs : Shape g r n)
    (hin : ∀ k, k < w.length →
      0 ≤ (rayCell d pos k).x ∧ (rayCell d pos k).x < (r : Int) ∧
      0 ≤ (rayCell d pos k).y ∧ (rayCell d pos k).y < (n : Int)) :
    ∀ k, k < w.length → cellAt (insertLoop d w pos g) (rayCell d pos k) = w.getD k 0 := by
  induction w generalizing pos g with
  | nil => intro k hk; exact absurd hk (Nat.not_lt_zero k)
  | cons c cs ih =>
    intro k hk
    simp only [insertLoop]
    rw [step_eq_rayCell d h0 h8]
    cases k with
    | zero =>
      rw [rayCell_zero, insertLoop_frame d h0 h8]
      · have h := hin 0 (by simp)
        rw [rayCell_zero] at h
        rw [cellAt_putAt_eq g r n hs pos c h.1 h.2.1 h.2.2.1 h.2.2.2]
        simp
      · intro m _ hcon
        have h1 : rayCell d pos 0 = rayCell d pos (m + 1) := by
          rw [rayCell_zero, ← rayCell_succ]; exact hcon
        have := rayCell_injective d h0 h8 pos 0 (m + 1) h1
        omega
    | succ k =>
      have hk1 : k < cs.length := by simpa using hk
      have := ih (rayCell d pos 1) (putAt g pos c) (putAt_shape g r n hs pos c)
        (fun m hm => by
          rw [rayCell_succ]
          exact hin (m + 1) (by simpa using hm)) k hk1
      rw [rayCell_succ] at this
      rw [this]
      simp

theorem wellFormed_setPuzzle {s : WordScrambler} (h : WellFormed s) (g : List (List Nat))
    (hg : Shape g s.m_ncol s.m_nrow) : WellFormed { s with m_puzzle := g } :=
  ⟨hg, h.meta_shape, h.meta_pos⟩

/-! ## Claim on the free-space index -/

/-- C7, as stated, fails. On the 3 by 3 grid whose only letter is an `'A'` in
cell (0, 0): the count of cell (0, 0) towards the south is 0 although the two
cells one and two steps to the south are empty (the scan of the specification
gives 2), and the count of cell (1, 0) towards the north is 1 although the
cell one step to the north is filled (the scan of the specification gives 0). -/
theorem freespace_ne_specFreeSpace :
    (new [[97]]).m_ncol = 3 ∧
    (tget (computeFreeSpace
        { new [[97]] with m_puzzle := [[65, 0, 0], [0, 0, 0], [0, 0, 0]] }).m_pos_col
      0 0 {}).freespace.getD 1 0 = 0 ∧
    specFreeSpace { new [[97]] with m_puzzle := [[65, 0, 0], [0, 0, 0], [0, 0, 0]] }
      1 ⟨0, 0⟩ = 2 ∧
    (tget (computeFreeSpace
        { new [[97]] with m_puzzle := [[65, 0, 0], [0, 0, 0], [0, 0, 0]] }).m_pos_col
      1 0 {}).freespace.getD 0 0 = 1 ∧
    specFreeSpace { new [[97]] with m_puzzle := [[65, 0, 0], [0, 0, 0], [0, 0, 0]] }
      0 ⟨1, 0⟩ = 0 := by
  decide

/-- C7, amended: after `computeFreeSpace`, for every cell c = (i, j) and every
direction d, `freespace[d]` of c is the number m of consecutive empty cells
counted from c itself (c included), a cell being counted only while the next
cell of the ray is still inside the grid: the cells c, ..., c + (m - 1) * delta
are empty and the cells after them are inside the grid, the walk cannot take
step m, and m is the value of the brute-force reference scan. The grid is
unchanged by the recomputation. -/
theorem computeFreeSpace_accuracy (s : WordScrambler) (h : WellFormed s) (i j d : Nat)
    (hi : i < s.m_ncol) (hj : j < s.m_nrow) (hd : d < 8) :
    (computeFreeSpace s).m_puzzle = s.m_puzzle ∧
    (tget (computeFreeSpace s).m_pos_col i j {}).freespace.getD d 0
      = refFreeSpace s (d : Int) ⟨(i : Int), (j : Int)⟩ ∧
    (∀ k, k < (tget (computeFreeSpace s).m_pos_col i j {}).freespace.getD d 0 →
      cellAt s.m_puzzle (rayCell (d : Int) ⟨(i : Int), (j : Int)⟩ k) = 0 ∧
        inGrid s (rayCell (d : Int) ⟨(i : Int), (j : Int)⟩ (k + 1))) ∧
    ¬ (cellAt s.m_puzzle (rayCell (d : Int) ⟨(i : Int), (j : Int)⟩
          ((tget (computeFreeSpace s).m_pos_col i j {}).freespace.getD d 0)) = 0 ∧
        inGrid s (rayCell (d : Int) ⟨(i : Int), (j : Int)⟩
          ((tget (computeFreeSpace s).m_pos_col i j {}).freespace.getD d 0 + 1))) := by
  have e := computeFreeSpace_freespace s h i j d hi hj hd
  refine ⟨rfl, e, ?_, ?_⟩
  · intro k hk
    rw [e] at hk
    exact refFreeSpace_sound s d hd _ k hk
  · rw [e]
    exact refFreeSpace_maximal s d hd _

/-- Witness of C7: the 3 by 3 grid with an `'A'` in cell (0, 0), cell (1, 1),
direction index 6 (north-west): the count is 1. -/
theorem computeFreeSpace_accuracy_witness :
    (tget (computeFreeSpace
        { new [[97]] with m_puzzle := putAt (new [[97]]).m_puzzle ⟨0, 0⟩ 65 }).m_pos_col
      1 1 {}).freespace.getD 6 0
      = refFreeSpace { new [[97]] with m_puzzle := putAt (new [[97]]).m_puzzle ⟨0, 0⟩ 65 }
          6 ⟨1, 1⟩ ∧
    refFreeSpace { new [[97]] with m_puzzle := putAt (new [[97]]).m_puzzle ⟨0, 0⟩ 65 }
      6 ⟨1, 1⟩ = 1 :=
  ⟨(computeFreeSpace_accuracy
      { new [[97]] with m_puzzle := putAt (new [[97]]).m_puzzle ⟨0, 0⟩ 65 }
      (wellFormed_setPuzzle (new_wellFormed [[97]]) _
        (putAt_shape _ _ _ (new_wellFormed [[97]]).puzzle_shape ⟨0, 0⟩ 65))
      1 1 6 (by decide) (by decide) (by decide)).2.1,
    by decide⟩

/-! ## Vacancy probe -/

theorem fullOnly_refl (s : WordScrambler) : FullOnly s s :=
  ⟨rfl, rfl, rfl, rfl, rfl, rfl, fun _ => rfl, fun _ _ => ⟨rfl, rfl⟩⟩

theorem fullOnly_trans {s t u : WordScrambler} (h1 : FullOnly s t) (h2 : FullOnly t u) :
    FullOnly s u := by
  obtain ⟨a1, a2, a3, a4, a5, a6, a7, a8⟩ := h1
  obtain ⟨b1, b2, b3, b4, b5, b6, b7, b8⟩ := h2
  refine ⟨b1.trans a1, b2.trans a2, b3.trans a3, b4.trans a4, b5.trans a5, b6.trans a6,
    fun k => (b7 k).trans (a7 k), fun i j => ⟨?_, ?_⟩⟩
  · exact ((b8 i j).1).trans ((a8 i j).1)
  · exact ((b8 i j).2).trans ((a8 i j).2)

theorem fullOnly_wellFormed {s t : WordScrambler} (h : FullOnly s t) (hw : WellFormed s) :
    WellFormed t := by
  obtain ⟨a1, _, _, a4, a5, a6, a7, a8⟩ := h
  refine ⟨?_, ?_, ?_⟩
  · rw [a1, a4, a5]; exact hw.puzzle_shape
  · rw [a4, a5]
    refine ⟨a6.trans hw.meta_shape.1, fun i hi => ?_⟩
    rw [a7 i]; exact hw.meta_shape.2 i hi
  · intro i j hi hj
    rw [(a8 i j).1]
    rw [a5] at hi
    rw [a4] at hj
    exact hw.meta_pos i j hi hj

theorem fullOnly_fresh {s t : WordScrambler} (h : FullOnly s t) (hf : Fresh s) : Fresh t := by
  obtain ⟨a1, _, _, a4, a5, _, _, a8⟩ := h
  intro i j d hi hj hd k hk
  rw [a5] at hi
  rw [a4] at hj
  rw [(a8 i j).2] at hk
  have := hf i j d hi hj hd k hk
  rw [a1]
  refine ⟨this.1, ?_⟩
  unfold inGrid at this ⊢
  rw [a4, a5]
  exact this.2

theorem fullOnly_setFull (s : WordScrambler) (i j : Nat) :
    FullOnly s
      { s with
        m_pos_col :=
          tset s.m_pos_col i j { (tget s.m_pos_col i j {}) with full := true } } := by
  refine ⟨rfl, rfl, rfl, rfl, rfl, tset_length _ _ _ _, fun k => tset_row_length _ _ _ _ _,
    fun a b => ?_⟩
  by_cases hab : a = i ∧ b = j
  · obtain ⟨rfl, rfl⟩ := hab
    by_cases hin : a < s.m_pos_col.length ∧ b < (s.m_pos_col.getD a []).length
    · simp only []
      rw [tget_tset_eq _ _ _ _ _ hin.1 hin.2]
      exact ⟨rfl, rfl⟩
    · have hsame : tset s.m_pos_col a b { (tget s.m_pos_col a b {}) with full := true }
          = s.m_pos_col := by
        unfold tset
        by_cases ha : a < s.m_pos_col.length
        · have hb : ¬ b < (s.m_pos_col.getD a []).length := fun hb => hin ⟨ha, hb⟩
          rw [List.set_eq_of_length_le (Nat.le_of_not_lt hb)]
          apply List.ext_getElem?
          intro n
          by_cases hn : a = n
          · subst hn
            simp [List.getElem?_set, ha, List.getD_eq_getElem?_getD]
          · simp [List.getElem?_set, hn]
        · exact List.set_eq_of_length_le (Nat.le_of_not_lt ha)
      simp only []
      rw [hsame]
      exact ⟨rfl, rfl⟩
  · simp only []
    rw [tget_tset_ne _ _ _ _ _ _ _ hab]
    exact ⟨rfl, rfl⟩

theorem probeDirs_found (rnd : Nat → Nat) (fs : List Nat) (size : Nat) (iters k f p : Nat)
    (idx p1 : Nat) (h : probeDirs rnd fs size iters k f p = (Probe.found idx, p1)) :
    idx < 8 ∧ size ≤ fs.getD idx 0 := by
  induction iters generalizing k f p with
  | zero => simp [probeDirs] at h
  | succ iters ih =>
    simp only [probeDirs] at h
    split at h
    · simp at h
    · split at h
      · simp only [Prod.mk.injEq, Probe.found.injEq] at h
        obtain ⟨h1, _⟩ := h
        subst h1
        refine ⟨Nat.mod_lt _ (by decide), ?_⟩
        assumption
      · exact ih _ _ _ h

/-- What the loop of `vacant` returns: the engine differs in `full` flags only
and, unless the direction is `-1`, the returned metadata carries the
coordinate and the free-space counts of a cell `(i, j)` of the table, and the
count in the returned direction is at least `size`. -/
theorem vacantLoop_spec (rnd : Nat → Nat) (size n : Nat) (s : WordScrambler) (p : Nat) :
    FullOnly s (vacantLoop rnd size n s p).2.1 ∧
    ((vacantLoop rnd size n s p).1.1 = -1 ∨
      ∃ (i j d : Nat), (0 < s.m_ncol → i < s.m_ncol) ∧ (0 < s.m_nrow → j < s.m_nrow) ∧ d < 8 ∧
        (vacantLoop rnd size n s p).1.1 = (d : Int) ∧
        (vacantLoop rnd size n s p).1.2.pos = (tget s.m_pos_col i j {}).pos ∧
        (vacantLoop rnd size n s p).1.2.freespace = (tget s.m_pos_col i j {}).freespace ∧
        size ≤ (tget s.m_pos_col i j {}).freespace.getD d 0) := by
  induction n generalizing s p with
  | zero => exact ⟨fullOnly_refl s, Or.inl rfl⟩
  | succ n ih =>
    simp only [vacantLoop]
    split
    · exact ih s (p + 2)
    · split
      · rename_i idx p1 heq
        have hf := probeDirs_found rnd _ size 8 0 0 (p + 2) idx p1 heq
        refine ⟨fullOnly_refl s, Or.inr ⟨rnd p % s.m_ncol, rnd (p + 1) % s.m_nrow, idx,
          fun h => Nat.mod_lt _ h, fun h => Nat.mod_lt _ h, hf.1, rfl, rfl, rfl, hf.2⟩⟩
      · rename_i p1 heq
        have hfo := fullOnly_setFull s (rnd p % s.m_ncol) (rnd (p + 1) % s.m_nrow)
        obtain ⟨h1, h2⟩ := ih _ p1
        refine ⟨fullOnly_trans hfo h1, ?_⟩
        rcases h2 with h2 | ⟨i, j, d, hi, hj, hd, e1, e2, e3, e4⟩
        · exact Or.inl h2
        · refine Or.inr ⟨i, j, d, hi, hj, hd, e1, ?_, ?_, ?_⟩
          · rw [e2]; exact (hfo.2.2.2.2.2.2.2 i j).1
          · rw [e3]; exact (hfo.2.2.2.2.2.2.2 i j).2
          · rw [← (hfo.2.2.2.2.2.2.2 i j).2]; exact e4
      · rename_i p1 heq
        exact ih s p1

/-! ## Placement -/

theorem try_position_placed (rnd : Nat → Nat) (s : WordScrambler) (p : Nat) (w : List Nat)
    (h : (try_position rnd s p w).1 = true) :
    (vacant rnd s p w.length).1.1 ≠ -1 ∧
    (try_position rnd s p w).2.1
      = insert (vacant rnd s p w.length).2.1 (vacant rnd s p w.length).1 w := by
  by_cases hv : (vacant rnd s p w.length).1.1 ≠ -1
  · exact ⟨hv, by simp only [try_position, if_pos hv]⟩
  · exfalso
    simp [try_position, hv] at h

theorem try_position_skipped (rnd : Nat → Nat) (s : WordScrambler) (p : Nat) (w : List Nat)
    (h : ¬ (try_position rnd s p w).1 = true) :
    (try_position rnd s p w).2.1 = (vacant rnd s p w.length).2.1 := by
  by_cases hv : (vacant rnd s p w.length).1.1 ≠ -1
  · exfalso
    simp [try_position, hv] at h
  · simp only [try_position, if_neg hv]

theorem inGrid_congr {s t : WordScrambler} (hc : t.m_ncol = s.m_ncol)
    (hr : t.m_nrow = s.m_nrow) (c : Coord) : inGrid t c ↔ inGrid s c := by
  unfold inGrid
  rw [hc, hr]

/-- A successful `try_position` writes its word along a ray of a valid
direction and changes no cell off that ray. -/
theorem try_position_frame (rnd : Nat → Nat) (s : WordScrambler) (p : Nat) (w : List Nat)
    (h : (try_position rnd s p w).1 = true) :
    (0 ≤ (placementOf rnd s p w).first ∧ (placementOf rnd s p w).first < 8) ∧
    ∀ q, ¬ onRay (placementOf rnd s p w) q →
      cellAt (try_position rnd s p w).2.1.m_puzzle q = cellAt s.m_puzzle q := by
  obtain ⟨hv, ht⟩ := try_position_placed rnd s p w h
  obtain ⟨hfo, hres⟩ := vacantLoop_spec rnd w.length 100 s p
  rcases hres with hres | ⟨i, j, d, _, _, hd, e1, _, _, _⟩
  · exact absurd hres hv
  · have h0 : (0 : Int) ≤ (vacant rnd s p w.length).1.1 := by
      unfold vacant; rw [e1]; exact Int.natCast_nonneg d
    have h8 : (vacant rnd s p w.length).1.1 < 8 := by
      unfold vacant; rw [e1]; exact_mod_cast hd
    refine ⟨⟨h0, h8⟩, ?_⟩
    intro q hq
    rw [ht]
    simp only [insert]
    rw [insertLoop_frame _ h0 h8]
    · exact congrArg (fun g => cellAt g q) hfo.1
    · intro k hk hcon
      exact hq ⟨k, hk, hcon⟩

/-- A successful `try_position` on an engine with a sound free-space index:
the ray of the word lies inside the grid, its cells were empty, and they hold
the letters of the word afterwards. -/
theorem try_position_step (rnd : Nat → Nat) (s : WordScrambler) (p : Nat) (w : List Nat)
    (hw : WellFormed s) (hf : Fresh s) (hc : 0 < s.m_ncol) (hr : 0 < s.m_nrow)
    (h : (try_position rnd s p w).1 = true) :
    WellFormed (try_position rnd s p w).2.1 ∧
    (try_position rnd s p w).2.1.m_ncol = s.m_ncol ∧
    (try_position rnd s p w).2.1.m_nrow = s.m_nrow ∧
    inGrid s (placementOf rnd s p w).start ∧
    ∀ k, k < w.length →
      inGrid s (rayCell (placementOf rnd s p w).first (placementOf rnd s p w).start k) ∧
      cellAt s.m_puzzle
        (rayCell (placementOf rnd s p w).first (placementOf rnd s p w).start k) = 0 ∧
      cellAt (try_position rnd s p w).2.1.m_puzzle
        (rayCell (placementOf rnd s p w).first (placementOf rnd s p w).start k)
          = w.getD k 0 := by
  obtain ⟨hv, ht⟩ := try_position_placed rnd s p w h
  obtain ⟨hfo0, hres⟩ := vacantLoop_spec rnd w.length 100 s p
  have hfo : FullOnly s (vacant rnd s p w.length).2.1 := hfo0
  rcases hres with hres | ⟨i, j, d, hi, hj, hd, e1, e2, _, e4⟩
  · exact absurd hres hv
  · have hi := hi hc
    have hj := hj hr
    have h0 : (0 : Int) ≤ (d : Int) := Int.natCast_nonneg d
    have h8 : (d : Int) < 8 := by exact_mod_cast hd
    have hfirst : (placementOf rnd s p w).first = (d : Int) := e1
    have hstart : (placementOf rnd s p w).start = ⟨(i : Int), (j : Int)⟩ := by
      show (vacantLoop rnd w.length 100 s p).1.2.pos = _
      rw [e2]; exact hw.meta_pos i j hi hj
    have hwt : WellFormed (vacant rnd s p w.length).2.1 := fullOnly_wellFormed hfo hw
    have hstartIn : inGrid s ⟨(i : Int), (j : Int)⟩ := by
      unfold inGrid
      simp only
      omega
    have hray : ∀ k, k < w.length →
        inGrid s (rayCell (d : Int) ⟨(i : Int), (j : Int)⟩ k) ∧
        cellAt s.m_puzzle (rayCell (d : Int) ⟨(i : Int), (j : Int)⟩ k) = 0 := by
      intro k hk
      have hk4 : k < (tget s.m_pos_col i j {}).freespace.getD d 0 := lt_of_lt_of_le hk e4
      refine ⟨?_, (hf i j d hi hj hd k hk4).1⟩
      cases k with
      | zero => rw [rayCell_zero]; exact hstartIn
      | succ k =>
        have hk5 : k < (tget s.m_pos_col i j {}).freespace.getD d 0 := by omega
        exact (hf i j d hi hj hd k hk5).2
    have hsh : Shape (vacant rnd s p w.length).2.1.m_puzzle s.m_ncol s.m_nrow := by
      have := hwt.puzzle_shape
      rw [hfo.2.2.2.2.1, hfo.2.2.2.1] at this
      exact this
    refine ⟨?_, ?_, ?_, ?_, ?_⟩
    · rw [ht]
      apply wellFormed_setPuzzle hwt
      exact insertLoop_shape _ _ _ _ _ _ hwt.puzzle_shape
    · rw [ht]; exact hfo.2.2.2.2.1
    · rw [ht]; exact hfo.2.2.2.1
    · rw [hstart]; exact hstartIn
    · intro k hk
      rw [hfirst, hstart]
      refine ⟨(hray k hk).1, (hray k hk).2, ?_⟩
      rw [ht]
      simp only [insert]
      have hd1 : (vacant rnd s p w.length).1.1 = (d : Int) := e1
      have hp1 : (vacant rnd s p w.length).1.2.pos = ⟨(i : Int), (j : Int)⟩ := hstart
      rw [hd1, hp1]
      exact insertLoop_read (d : Int) h0 h8 w _ _ s.m_ncol s.m_nrow hsh
        (fun m hm => (hray m hm).1) k hk

theorem try_position_skipped_fullOnly (rnd : Nat → Nat) (s : WordScrambler) (p : Nat)
    (w : List Nat) (h : ¬ (try_position rnd s p w).1 = true) :
    FullOnly s (try_position rnd s p w).2.1 := by
  rw [try_position_skipped rnd s p w h]
  exact (vacantLoop_spec rnd w.length 100 s p).1

/-- The count of `positionLoop` is the number of recorded placements, and the
placed words are a subsequence of the visited words. -/
theorem positionLoop_count (rnd : Nat → Nat) (ws : List (List Nat)) (s : WordScrambler)
    (p n : Nat) :
    (positionLoop rnd ws s p n).1 = n + (placementsLoop rnd ws s p).length ∧
    (placementsLoop rnd ws s p).length ≤ ws.length ∧
    ((placementsLoop rnd ws s p).map Placement.word).Sublist ws := by
  induction ws generalizing s p n with
  | nil => simp [positionLoop, placementsLoop]
  | cons w ws ih =>
    by_cases h : (try_position rnd s p w).1 = true
    · obtain ⟨h1, h2, h3⟩ := ih (computeFreeSpace (try_position rnd s p w).2.1)
        (try_position rnd s p w).2.2 (n + 1)
      simp only [positionLoop, placementsLoop, h, ↓reduceIte, List.length_cons, List.map_cons]
      refine ⟨by rw [h1]; omega, by omega, ?_⟩
      exact List.Sublist.cons₂ w h3
    · have hb : (try_position rnd s p w).1 = false := by simpa using h
      obtain ⟨h1, h2, h3⟩ := ih (try_position rnd s p w).2.1 (try_position rnd s p w).2.2 n
      simp only [positionLoop, placementsLoop, hb, Bool.false_eq_true, ↓reduceIte,
        List.length_cons]
      exact ⟨h1, by omega, List.Sublist.cons w h3⟩

/-- The loop of `positionWords` changes no cell off the rays of its
placements, and every placement has a valid direction index. -/
theorem positionLoop_frame (rnd : Nat → Nat) (ws : List (List Nat)) (s : WordScrambler)
    (p n : Nat) :
    (∀ e ∈ placementsLoop rnd ws s p, 0 ≤ e.first ∧ e.first < 8) ∧
    ∀ q, (∀ e ∈ placementsLoop rnd ws s p, ¬ onRay e q) →
      cellAt (positionLoop rnd ws s p n).2.1.m_puzzle q = cellAt s.m_puzzle q := by
  induction ws generalizing s p n with
  | nil => simp [positionLoop, placementsLoop]
  | cons w ws ih =>
    by_cases h : (try_position rnd s p w).1 = true
    · obtain ⟨h1, h2⟩ := ih (computeFreeSpace (try_position rnd s p w).2.1)
        (try_position rnd s p w).2.2 (n + 1)
      obtain ⟨hd, hfr⟩ := try_position_frame rnd s p w h
      simp only [positionLoop, placementsLoop, h, ↓reduceIte, List.mem_cons]
      refine ⟨?_, ?_⟩
      · rintro e (rfl | he)
        · exact hd
        · exact h1 e he
      · intro q hq
        rw [h2 q (fun e he => hq e (Or.inr he))]
        exact hfr q (hq _ (Or.inl rfl))
    · have hb : (try_position rnd s p w).1 = false := by simpa using h
      obtain ⟨h1, h2⟩ := ih (try_position rnd s p w).2.1 (try_position rnd s p w).2.2 n
      have hfo := try_position_skipped_fullOnly rnd s p w h
      simp only [positionLoop, placementsLoop, hb, Bool.false_eq_true, ↓reduceIte]
      refine ⟨h1, ?_⟩
      intro q hq
      rw [h2 q hq, hfo.1]

theorem readable_congr {s t : WordScrambler} (hc : t.m_ncol = s.m_ncol)
    (hr : t.m_nrow = s.m_nrow) {g : List (List Nat)} {e : Placement} (h : Readable t g e) :
    Readable s g e := by
  obtain ⟨h1, h2, h3⟩ := h
  exact ⟨h1, (inGrid_congr hc hr _).mp h2,
    fun k hk => ⟨(inGrid_congr hc hr _).mp (h3 k hk).1, (h3 k hk).2⟩⟩

/-- The loop of `positionWords` on an engine with a sound free-space index:
no non-empty cell is changed and every placed word is readable in the grid
the loop ends with. -/
theorem positionLoop_spec (rnd : Nat → Nat) (ws : List (List Nat)) (s : WordScrambler)
    (p n : Nat) (hw : WellFormed s) (hf : Fresh s) (hc : 0 < s.m_ncol) (hr : 0 < s.m_nrow)
    (hn : NoNul ws) :
    WellFormed (positionLoop rnd ws s p n).2.1 ∧
    (positionLoop rnd ws s p n).2.1.m_ncol = s.m_ncol ∧
    (positionLoop rnd ws s p n).2.1.m_nrow = s.m_nrow ∧
    (∀ q, cellAt s.m_puzzle q ≠ 0 →
      cellAt (positionLoop rnd ws s p n).2.1.m_puzzle q = cellAt s.m_puzzle q) ∧
    ∀ e ∈ placementsLoop rnd ws s p, Readable s (positionLoop rnd ws s p n).2.1.m_puzzle e := by
  induction ws generalizing s p n with
  | nil =>
    exact ⟨hw, rfl, rfl, fun _ _ => rfl, fun e he => absurd he (List.not_mem_nil e)⟩
  | cons w ws ih =>
    have hnw : ∀ c ∈ w, c ≠ 0 := hn w (List.mem_cons_self w ws)
    have hnws : NoNul ws := fun v hv => hn v (List.mem_cons_of_mem w hv)
    by_cases h : (try_position rnd s p w).1 = true
    · obtain ⟨t1, t2, t3, t4, t5⟩ := try_position_step rnd s p w hw hf hc hr h
      obtain ⟨hd, hfr⟩ := try_position_frame rnd s p w h
      have hw2 : WellFormed (computeFreeSpace (try_position rnd s p w).2.1) :=
        computeFreeSpace_wellFormed _ t1
      have hf2 : Fresh (computeFreeSpace (try_position rnd s p w).2.1) :=
        computeFreeSpace_fresh _ t1
      have hc2 : (computeFreeSpace (try_position rnd s p w).2.1).m_ncol = s.m_ncol := t2
      have hr2 : (computeFreeSpace (try_position rnd s p w).2.1).m_nrow = s.m_nrow := t3
      obtain ⟨i1, i2, i3, i4, i5⟩ := ih (computeFreeSpace (try_position rnd s p w).2.1)
        (try_position rnd s p w).2.2 (n + 1) hw2 hf2 (by rw [hc2]; exact hc)
        (by rw [hr2]; exact hr) hnws
      have hkeep : ∀ q, cellAt s.m_puzzle q ≠ 0 →
          cellAt (try_position rnd s p w).2.1.m_puzzle q = cellAt s.m_puzzle q := by
        intro q hq
        apply hfr q
        rintro ⟨k, hk, rfl⟩
        exact hq (t5 k hk).2.1
      simp only [positionLoop, placementsLoop, h, ↓reduceIte, List.mem_cons]
      refine ⟨i1, i2.trans hc2, i3.trans hr2, ?_, ?_⟩
      · intro q hq
        have e1 := hkeep q hq
        have e2 := i4 q (by
          show cellAt (try_position rnd s p w).2.1.m_puzzle q ≠ 0
          rw [e1]; exact hq)
        rw [e2]
        exact e1
      · rintro e (rfl | he)
        · refine ⟨hd, t4, ?_⟩
          intro k hk
          have hk1 : k < w.length := hk
          refine ⟨(t5 k hk1).1, ?_⟩
          have hlet : w.getD k 0 ≠ 0 := by
            apply hnw
            rw [List.getD_eq_getElem?_getD, List.getElem?_eq_getElem hk1]
            exact List.getElem_mem hk1
          have e2 := i4 (rayCell (placementOf rnd s p w).first (placementOf rnd s p w).start k)
            (by
              show cellAt (try_position rnd s p w).2.1.m_puzzle _ ≠ 0
              rw [(t5 k hk1).2.2]
              exact hlet)
          rw [e2]
          exact (t5 k hk1).2.2
        · exact readable_congr hc2 hr2 (i5 e he)
    · have hb : (try_position rnd s p w).1 = false := by simpa using h
      have hfo := try_position_skipped_fullOnly rnd s p w h
      obtain ⟨i1, i2, i3, i4, i5⟩ := ih (try_position rnd s p w).2.1
        (try_position rnd s p w).2.2 n (fullOnly_wellFormed hfo hw) (fullOnly_fresh hfo hf)
        (by rw [hfo.2.2.2.2.1]; exact hc) (by rw [hfo.2.2.2.1]; exact hr) hnws
      simp only [positionLoop, placementsLoop, hb, Bool.false_eq_true, ↓reduceIte]
      refine ⟨i1, i2.trans hfo.2.2.2.2.1, i3.trans hfo.2.2.2.1, ?_, ?_⟩
      · intro q hq
        have := i4 q (by rw [hfo.1]; exact hq)
        rw [this, hfo.1]
      · intro e he
        exact readable_congr hfo.2.2.2.2.1 hfo.2.2.2.1 (i5 e he)

theorem positionLoop_wellFormed (rnd : Nat → Nat) (ws : List (List Nat)) (s : WordScrambler)
    (p n : Nat) (hw : WellFormed s) :
    WellFormed (positionLoop rnd ws s p n).2.1 ∧
    (positionLoop rnd ws s p n).2.1.m_ncol = s.m_ncol ∧
    (positionLoop rnd ws s p n).2.1.m_nrow = s.m_nrow := by
  induction ws generalizing s p n with
  | nil => exact ⟨hw, rfl, rfl⟩
  | cons w ws ih =>
    by_cases h : (try_position rnd s p w).1 = true
    · obtain ⟨_, ht⟩ := try_position_placed rnd s p w h
      have hfo : FullOnly s (vacant rnd s p w.length).2.1 :=
        (vacantLoop_spec rnd w.length 100 s p).1
      have hwv := fullOnly_wellFormed hfo hw
      have hwt : WellFormed (try_position rnd s p w).2.1 := by
        rw [ht]
        exact wellFormed_setPuzzle hwv _ (insertLoop_shape _ _ _ _ _ _ hwv.puzzle_shape)
      have hc : (try_position rnd s p w).2.1.m_ncol = s.m_ncol := by
        rw [ht]; exact hfo.2.2.2.2.1
      have hr : (try_position rnd s p w).2.1.m_nrow = s.m_nrow := by
        rw [ht]; exact hfo.2.2.2.1
      obtain ⟨i1, i2, i3⟩ := ih (computeFreeSpace (try_position rnd s p w).2.1)
        (try_position rnd s p w).2.2 (n + 1) (computeFreeSpace_wellFormed _ hwt)
      simp only [positionLoop, h, ↓reduceIte]
      exact ⟨i1, i2.trans hc, i3.trans hr⟩
    · have hb : (try_position rnd s p w).1 = false := by simpa using h
      have hfo := try_position_skipped_fullOnly rnd s p w h
      obtain ⟨i1, i2, i3⟩ := ih (try_position rnd s p w).2.1 (try_position rnd s p w).2.2 n
        (fullOnly_wellFormed hfo hw)
      simp only [positionLoop, hb, Bool.false_eq_true, ↓reduceIte]
      exact ⟨i1, i2.trans hfo.2.2.2.2.1, i3.trans hfo.2.2.2.1⟩

/-! ## Word ordering -/

theorem toupper_ne_zero (c : Nat) (h : c ≠ 0) : toupper c ≠ 0 := by
  unfold toupper
  split <;> omega

theorem toupper_idem (c : Nat) : toupper (toupper c) = toupper c := by
  unfold toupper
  split
  · split <;> omega
  · rfl

theorem reverseRounds_length (gen : Nat → Nat) (n p : Nat) (ws : List (List Nat)) :
    (reverseRounds gen n p ws).length = ws.length := by
  induction n generalizing p ws with
  | zero => rfl
  | succ n ih =>
    simp only [reverseRounds]
    rw [ih]
    split
    · exact List.length_set _ _ _
    · rfl

theorem reverseRounds_mem (gen : Nat → Nat) (n p : Nat) (ws : List (List Nat)) :
    ∀ w ∈ reverseRounds gen n p ws, ∃ v ∈ ws, w = v ∨ w = reversed v := by
  induction n generalizing p ws with
  | zero => exact fun w hw => ⟨w, hw, Or.inl rfl⟩
  | succ n ih =>
    intro w hw
    simp only [reverseRounds] at hw
    obtain ⟨v, hv, hwv⟩ := ih _ _ w hw
    split at hv
    · rename_i hidx
      rcases List.mem_or_eq_of_mem_set hv with hmem | heq
      · exact ⟨v, hmem, hwv⟩
      · have hlt : ((dist ws.length (gen p) : Int) - 1).toNat < ws.length := by omega
        have hu : ws.getD ((dist ws.length (gen p) : Int) - 1).toNat [] ∈ ws := by
          rw [List.getD_eq_getElem _ _ hlt]
          exact List.getElem_mem hlt
        refine ⟨_, hu, ?_⟩
        rcases hwv with e | e
        · right; rw [e, heq]
        · left; rw [e, heq]; simp [reversed]
    · exact ⟨v, hv, hwv⟩

theorem sortDesc_perm (ws : List (List Nat)) : (sortDesc ws).Perm ws :=
  List.perm_insertionSort _ ws

theorem scramble_length (gen : Nat → Nat) (s : WordScrambler) :
    (scramble gen s).m_words.length = s.m_words.length := by
  simp only [scramble]
  rw [(sortDesc_perm _).length_eq, reverseRounds_length]

theorem scramble_mem (gen : Nat → Nat) (s : WordScrambler) :
    ∀ w ∈ (scramble gen s).m_words, ∃ v ∈ s.m_words, w = v ∨ w = reversed v := by
  intro w hw
  simp only [scramble] at hw
  exact reverseRounds_mem gen _ _ _ w ((sortDesc_perm _).mem_iff.mp hw)

theorem beforePlacement_cap_words (gen : Nat → Nat) (s : WordScrambler) :
    (beforePlacement gen s).m_cap_words = s.m_words.map (fun w => w.map toupper) := rfl

theorem beforePlacement_length (gen : Nat → Nat) (s : WordScrambler) :
    (beforePlacement gen s).m_words.length = s.m_words.length := by
  unfold beforePlacement
  rw [scramble_length]
  simp [capitalizeWords, computeFreeSpace]

theorem beforePlacement_mem (gen : Nat → Nat) (s : WordScrambler) :
    ∀ w ∈ (beforePlacement gen s).m_words,
      ∃ v ∈ (beforePlacement gen s).m_cap_words, w = v ∨ w = reversed v :=
  scramble_mem gen (capitalizeWords (computeFreeSpace s))

theorem beforePlacement_noNul (gen : Nat → Nat) (s : WordScrambler) (h : NoNul s.m_words) :
    NoNul (beforePlacement gen s).m_words := by
  intro w hw c hc
  obtain ⟨v, hv, hwv⟩ := beforePlacement_mem gen s w hw
  rw [beforePlacement_cap_words] at hv
  obtain ⟨u, hu, rfl⟩ := List.mem_map.mp hv
  have hcv : c ∈ u.map toupper := by
    rcases hwv with e | e
    · rw [e] at hc; exact hc
    · rw [e] at hc; simpa [reversed] using hc
  obtain ⟨b, hb, rfl⟩ := List.mem_map.mp hcv
  exact toupper_ne_zero b (h u hu b hb)

theorem beforePlacement_wellFormed (gen : Nat → Nat) (s : WordScrambler) (h : WellFormed s) :
    WellFormed (beforePlacement gen s) :=
  ⟨(computeFreeSpace_wellFormed s h).puzzle_shape,
    (computeFreeSpace_wellFormed s h).meta_shape, (computeFreeSpace_wellFormed s h).meta_pos⟩

theorem beforePlacement_fresh (gen : Nat → Nat) (s : WordScrambler) (h : WellFormed s) :
    Fresh (beforePlacement gen s) :=
  computeFreeSpace_fresh s h

theorem remaining_eq (total n : Nat) (hle : n ≤ total) (hlt : total < 2 ^ 64) :
    remaining total n = total - n := by
  unfold remaining
  have h0 : (0 : Int) ≤ (total : Int) - (n : Int) := by omega
  have h1 : (total : Int) - (n : Int) < 2 ^ 64 := by
    have : (total : Int) < 2 ^ 64 := by exact_mod_cast hlt
    omega
  rw [Int.emod_eq_of_lt h0 h1]
  omega

theorem new_words (ws : List (List Nat)) : (new ws).m_words = ws := rfl

theorem new_cell_empty (ws : List (List Nat)) (q : Coord) : cellAt (new ws).m_puzzle q = 0 := by
  rw [new_puzzle]
  unfold cellAt tget
  split
  · simp only [List.getD_eq_getElem?_getD, List.getElem?_replicate]
    split
    · simp only [Option.getD_some, List.getElem?_replicate]
      split <;> rfl
    · rfl
  · rfl

theorem puzzleDim_pos (ws : List (List Nat)) : 0 < puzzleDim ws := by
  rw [puzzleDim_eq]
  exact lt_of_lt_of_le (by omega) (le_max_left _ _)

/-! ## The build -/

theorem rearrange_count_eq (gen rnd : Nat → Nat) (s : WordScrambler) :
    (rearrange gen rnd s).1 = (positionWords rnd (beforePlacement gen s) 0).1 := rfl

theorem rearrange_state_eq (gen rnd : Nat → Nat) (s : WordScrambler) :
    (rearrange gen rnd s).2
      = (addNoise rnd (beforeNoise gen rnd s)
          (positionWords rnd (beforePlacement gen s) 0).2.2).1 := rfl

theorem beforeNoise_wellFormed (gen rnd : Nat → Nat) (ws : List (List Nat)) :
    WellFormed (beforeNoise gen rnd (new ws)) ∧
    (beforeNoise gen rnd (new ws)).m_ncol = puzzleDim ws ∧
    (beforeNoise gen rnd (new ws)).m_nrow = puzzleDim ws := by
  obtain ⟨h1, h2, h3⟩ := positionLoop_wellFormed rnd (beforePlacement gen (new ws)).m_words
    (beforePlacement gen (new ws)) 0 0 (beforePlacement_wellFormed gen _ (new_wellFormed ws))
  exact ⟨h1, h2.trans (new_ncol ws), h3.trans (new_nrow ws)⟩

/-- C3: for every word list without NUL characters and all random streams, the
count returned by `rearrange` is the number of recorded placements, the placed
words are a subsequence of the scrambled upper-case word list, and every placed
word is readable both before the noise fill and in the final grid: its
direction index d is in 0..7, its start cell c is inside the grid, and for
every k below its length the cell c + k * delta(d) is inside the grid and holds
letter k of the word. So no later insertion and no noise letter overwrote it. -/
theorem rearrange_placed_readable (ws : List (List Nat)) (gen rnd : Nat → Nat)
    (hn : NoNul ws) :
    (rearrange gen rnd (new ws)).1 = (placements gen rnd (new ws)).length ∧
    ((placements gen rnd (new ws)).map Placement.word).Sublist
      (beforePlacement gen (new ws)).m_words ∧
    ∀ e ∈ placements gen rnd (new ws),
      Readable (rearrange gen rnd (new ws)).2 (beforeNoise gen rnd (new ws)).m_puzzle e ∧
      Readable (rearrange gen rnd (new ws)).2 (rearrange gen rnd (new ws)).2.m_puzzle e := by
  have hwf := beforePlacement_wellFormed gen _ (new_wellFormed ws)
  have hfr := beforePlacement_fresh gen _ (new_wellFormed ws)
  have hc : 0 < (beforePlacement gen (new ws)).m_ncol := by
    show 0 < (new ws).m_ncol
    rw [new_ncol]; exact puzzleDim_pos ws
  have hr : 0 < (beforePlacement gen (new ws)).m_nrow := by
    show 0 < (new ws).m_nrow
    rw [new_nrow]; exact puzzleDim_pos ws
  have hnn : NoNul (beforePlacement gen (new ws)).m_words :=
    beforePlacement_noNul gen (new ws) hn
  obtain ⟨c1, _, c3⟩ := positionLoop_count rnd (beforePlacement gen (new ws)).m_words
    (beforePlacement gen (new ws)) 0 0
  obtain ⟨_, s2, s3, _, s5⟩ := positionLoop_spec rnd (beforePlacement gen (new ws)).m_words
    (beforePlacement gen (new ws)) 0 0 hwf hfr hc hr hnn
  refine ⟨?_, c3, ?_⟩
  · rw [rearrange_count_eq]
    show (positionLoop rnd _ _ 0 0).1 = _
    rw [c1]
    simp [placements]
  · intro e he
    have hread : Readable (beforePlacement gen (new ws))
        (beforeNoise gen rnd (new ws)).m_puzzle e := s5 e he
    have hread2 : Readable (rearrange gen rnd (new ws)).2
        (beforeNoise gen rnd (new ws)).m_puzzle e := by
      apply readable_congr _ _ hread
      · show (beforePlacement gen (new ws)).m_ncol = (beforeNoise gen rnd (new ws)).m_ncol
        exact s2.symm
      · show (beforePlacement gen (new ws)).m_nrow = (beforeNoise gen rnd (new ws)).m_nrow
        exact s3.symm
    refine ⟨hread2, hread2.1, hread2.2.1, ?_⟩
    intro k hk
    obtain ⟨hin, hval⟩ := hread2.2.2 k hk
    refine ⟨hin, ?_⟩
    have hlet : e.word.getD k 0 ≠ 0 := by
      have hmem : e.word ∈ (beforePlacement gen (new ws)).m_words :=
        c3.subset (List.mem_map.mpr ⟨e, he, rfl⟩)
      apply hnn e.word hmem
      rw [List.getD_eq_getElem _ _ hk]
      exact List.getElem_mem hk
    have hext := addNoise_ext rnd (beforeNoise gen rnd (new ws))
      (positionWords rnd (beforePlacement gen (new ws)) 0).2.2
    rw [rearrange_state_eq]
    obtain ⟨hx0, _, hy0, _⟩ := hin
    have hne : tget (beforeNoise gen rnd (new ws)).m_puzzle
        (rayCell e.first e.start k).x.toNat (rayCell e.first e.start k).y.toNat 0 ≠ 0 := by
      have := hval
      unfold cellAt at this
      rw [if_pos ⟨hx0, hy0⟩] at this
      rw [this]; exact hlet
    have hkeep := (hext.2.2 _ _).1 hne
    rw [← hval]
    unfold cellAt
    rw [if_pos ⟨hx0, hy0⟩, if_pos ⟨hx0, hy0⟩]
    exact hkeep

/-- Witness of C3: the words "cat", "dog" with both streams the identity; both
words are placed. -/
theorem rearrange_placed_readable_witness :
    NoNul [[99, 97, 116], [100, 111, 103]] ∧
    (rearrange (fun n => n) (fun n => n) (new [[99, 97, 116], [100, 111, 103]])).1 = 2 ∧
    ∀ e ∈ placements (fun n => n) (fun n => n) (new [[99, 97, 116], [100, 111, 103]]),
      Readable (rearrange (fun n => n) (fun n => n) (new [[99, 97, 116], [100, 111, 103]])).2
        (rearrange (fun n => n) (fun n => n)
          (new [[99, 97, 116], [100, 111, 103]])).2.m_puzzle e :=
  ⟨by unfold NoNul; decide, by decide,
    fun e he => ((rearrange_placed_readable [[99, 97, 116], [100, 111, 103]]
      (fun n => n) (fun n => n) (by unfold NoNul; decide)).2.2 e he).2⟩

theorem positionLoop_words (rnd : Nat → Nat) (ws : List (List Nat)) (s : WordScrambler)
    (p n : Nat) :
    (positionLoop rnd ws s p n).2.1.m_words = s.m_words ∧
    (positionLoop rnd ws s p n).2.1.m_cap_words = s.m_cap_words := by
  induction ws generalizing s p n with
  | nil => exact ⟨rfl, rfl⟩
  | cons w ws ih =>
    have hfo : FullOnly s (vacant rnd s p w.length).2.1 :=
      (vacantLoop_spec rnd w.length 100 s p).1
    by_cases h : (try_position rnd s p w).1 = true
    · obtain ⟨_, ht⟩ := try_position_placed rnd s p w h
      obtain ⟨i1, i2⟩ := ih (computeFreeSpace (try_position rnd s p w).2.1)
        (try_position rnd s p w).2.2 (n + 1)
      simp only [positionLoop, h, ↓reduceIte]
      refine ⟨i1.trans ?_, i2.trans ?_⟩
      · show (try_position rnd s p w).2.1.m_words = s.m_words
        rw [ht]; exact hfo.2.1
      · show (try_position rnd s p w).2.1.m_cap_words = s.m_cap_words
        rw [ht]; exact hfo.2.2.1
    · have hb : (try_position rnd s p w).1 = false := by simpa using h
      have hfo2 := try_position_skipped_fullOnly rnd s p w h
      obtain ⟨i1, i2⟩ := ih (try_position rnd s p w).2.1 (try_position rnd s p w).2.2 n
      simp only [positionLoop, hb, Bool.false_eq_true, ↓reduceIte]
      exact ⟨i1.trans hfo2.2.1, i2.trans hfo2.2.2.1⟩

theorem rearrange_words_eq (gen rnd : Nat → Nat) (s : WordScrambler) :
    (rearrange gen rnd s).2.m_words = (beforePlacement gen s).m_words ∧
    (rearrange gen rnd s).2.m_cap_words = (beforePlacement gen s).m_cap_words :=
  positionLoop_words rnd (beforePlacement gen s).m_words (beforePlacement gen s) 0 0

/-- C4: for every word list and all random streams, after `rearrange` every
cell inside the grid is non-empty, and every cell inside the grid that lies on
the ray of no placement (that no word insertion wrote) holds a letter of
`'A' .. 'Z'` (a byte from 65 to 90). -/
theorem rearrange_noise_complete (ws : List (List Nat)) (gen rnd : Nat → Nat) (q : Coord)
    (hq : inGrid (rearrange gen rnd (new ws)).2 q) :
    cellAt (rearrange gen rnd (new ws)).2.m_puzzle q ≠ 0 ∧
    ((∀ e ∈ placements gen rnd (new ws), ¬ onRay e q) →
      65 ≤ cellAt (rearrange gen rnd (new ws)).2.m_puzzle q ∧
        cellAt (rearrange gen rnd (new ws)).2.m_puzzle q ≤ 90) := by
  obtain ⟨hwf, _, _⟩ := beforeNoise_wellFormed gen rnd ws
  have hq1 : inGrid (beforeNoise gen rnd (new ws)) q := hq
  obtain ⟨hx0, hx1, hy0, hy1⟩ := hq1
  have hfill := addNoise_filled rnd (beforeNoise gen rnd (new ws))
    (positionWords rnd (beforePlacement gen (new ws)) 0).2.2 hwf.puzzle_shape
    q.x.toNat q.y.toNat (by omega) (by omega)
  have hext := addNoise_ext rnd (beforeNoise gen rnd (new ws))
    (positionWords rnd (beforePlacement gen (new ws)) 0).2.2
  have hcell : ∀ g : List (List Nat), cellAt g q = tget g q.x.toNat q.y.toNat 0 := by
    intro g
    unfold cellAt
    rw [if_pos ⟨hx0, hy0⟩]
  rw [rearrange_state_eq, hcell]
  refine ⟨hfill, ?_⟩
  intro hoff
  have hempty : cellAt (beforeNoise gen rnd (new ws)).m_puzzle q = 0 := by
    have := (positionLoop_frame rnd (beforePlacement gen (new ws)).m_words
      (beforePlacement gen (new ws)) 0 0).2 q hoff
    rw [show cellAt (beforeNoise gen rnd (new ws)).m_puzzle q
      = cellAt (positionLoop rnd (beforePlacement gen (new ws)).m_words
          (beforePlacement gen (new ws)) 0 0).2.1.m_puzzle q from rfl, this]
    exact new_cell_empty ws q
  rw [hcell] at hempty
  rcases (hext.2.2 _ _).2 hempty with h0 | hlet
  · exact absurd h0 hfill
  · exact hlet

/-- Witness of C4: cell (0, 0) of the grid built for "cat", "dog" with both
streams the identity. -/
theorem rearrange_noise_complete_witness :
    cellAt (rearrange (fun n => n) (fun n => n)
      (new [[99, 97, 116], [100, 111, 103]])).2.m_puzzle ⟨0, 0⟩ ≠ 0 :=
  (rearrange_noise_complete [[99, 97, 116], [100, 111, 103]] (fun n => n) (fun n => n)
    ⟨0, 0⟩ (by decide)).1

/-- C6: for every word list and all random streams, the count returned by
`rearrange` is the number of words for which `try_position` succeeded (the
recorded placements), it never exceeds the number of input words, and, the
number of words being below `2 ^ 64`, the unsigned difference printed as
`Remaining` does not wrap: placed plus remaining is the total. -/
theorem rearrange_count_conserved (ws : List (List Nat)) (gen rnd : Nat → Nat)
    (hsize : ws.length < 2 ^ 64) :
    (rearrange gen rnd (new ws)).1 = (placements gen rnd (new ws)).length ∧
    (rearrange gen rnd (new ws)).1 ≤ ws.length ∧
    remaining ws.length (rearrange gen rnd (new ws)).1
      = ws.length - (rearrange gen rnd (new ws)).1 ∧
    (rearrange gen rnd (new ws)).1 + remaining ws.length (rearrange gen rnd (new ws)).1
      = ws.length := by
  obtain ⟨c1, c2, _⟩ := positionLoop_count rnd (beforePlacement gen (new ws)).m_words
    (beforePlacement gen (new ws)) 0 0
  have hlen : (beforePlacement gen (new ws)).m_words.length = ws.length :=
    beforePlacement_length gen (new ws)
  have hcount : (rearrange gen rnd (new ws)).1 = (placements gen rnd (new ws)).length := by
    rw [rearrange_count_eq]
    show (positionLoop rnd _ _ 0 0).1 = _
    rw [c1]
    simp [placements]
  have hle : (rearrange gen rnd (new ws)).1 ≤ ws.length := by
    rw [hcount, ← hlen]
    exact c2
  have hrem := remaining_eq ws.length _ hle hsize
  exact ⟨hcount, hle, hrem, by rw [hrem]; omega⟩

/-- Witness of C6: the words "cat", "dog" with both streams the identity; two
words placed, none remaining. -/
theorem rearrange_count_conserved_witness :
    (rearrange (fun n => n) (fun n => n) (new [[99, 97, 116], [100, 111, 103]])).1
      + remaining 2 (rearrange (fun n => n) (fun n => n)
          (new [[99, 97, 116], [100, 111, 103]])).1 = 2 :=
  (rearrange_count_conserved [[99, 97, 116], [100, 111, 103]] (fun n => n) (fun n => n)
    (by decide)).2.2.2

/-- C8: `insert` changes only the cells of the ray of the word: for every
engine, accepted pair (direction index d in 0..7, start cell c) and word w,
every cell other than c, c + delta(d), ..., c + (|w| - 1) * delta(d) holds the
same value afterwards. Hence, for every engine and all random streams, a cell
that is empty before `positionWords` and lies on the ray of no placement is
still empty after it, and during `rearrange` every cell on the ray of no
placement is empty when `addNoise` starts. -/
theorem insert_changes_only_ray :
    (∀ (s : WordScrambler) (pos_m : Int × PosMetaData) (w : List Nat) (q : Coord),
      0 ≤ pos_m.1 → pos_m.1 < 8 →
      (∀ k, k < w.length → q ≠ rayCell pos_m.1 pos_m.2.pos k) →
      cellAt (insert s pos_m w).m_puzzle q = cellAt s.m_puzzle q) ∧
    (∀ (rnd : Nat → Nat) (s : WordScrambler) (p : Nat) (q : Coord),
      cellAt s.m_puzzle q = 0 →
      (∀ e ∈ placementsLoop rnd s.m_words s p, ¬ onRay e q) →
      cellAt (positionWords rnd s p).2.1.m_puzzle q = 0) ∧
    (∀ (ws : List (List Nat)) (gen rnd : Nat → Nat) (q : Coord),
      (∀ e ∈ placements gen rnd (new ws), ¬ onRay e q) →
      cellAt (beforeNoise gen rnd (new ws)).m_puzzle q = 0) := by
  refine ⟨?_, ?_, ?_⟩
  · intro s pos_m w q h0 h8 hq
    exact insertLoop_frame pos_m.1 h0 h8 w pos_m.2.pos s.m_puzzle q hq
  · intro rnd s p q hempty hoff
    have := (positionLoop_frame rnd s.m_words s p 0).2 q hoff
    rw [show cellAt (positionWords rnd s p).2.1.m_puzzle q
      = cellAt (positionLoop rnd s.m_words s p 0).2.1.m_puzzle q from rfl, this]
    exact hempty
  · intro ws gen rnd q hoff
    have := (positionLoop_frame rnd (beforePlacement gen (new ws)).m_words
      (beforePlacement gen (new ws)) 0 0).2 q hoff
    rw [show cellAt (beforeNoise gen rnd (new ws)).m_puzzle q
      = cellAt (positionLoop rnd (beforePlacement gen (new ws)).m_words
          (beforePlacement gen (new ws)) 0 0).2.1.m_puzzle q from rfl, this]
    exact new_cell_empty ws q

/-- Witness of C8: inserting "CAT" southwards from cell (0, 0) of the empty
5 by 5 grid leaves cell (0, 1) as it was. -/
theorem insert_changes_only_ray_witness :
    cellAt (insert (new [[99, 97, 116], [100, 111, 103]])
      (1, { pos := ⟨0, 0⟩ }) [67, 65, 84]).m_puzzle ⟨0, 1⟩
      = cellAt (new [[99, 97, 116], [100, 111, 103]]).m_puzzle ⟨0, 1⟩ :=
  insert_changes_only_ray.1 (new [[99, 97, 116], [100, 111, 103]])
    (1, { pos := ⟨0, 0⟩ }) [67, 65, 84] ⟨0, 1⟩ (by decide) (by decide) (by decide)

/-! ## The word lists -/

theorem capitalizeWords_idem (s : WordScrambler) :
    capitalizeWords (capitalizeWords s) = capitalizeWords s := by
  have h : ∀ w : List Nat, (w.map toupper).map toupper = w.map toupper := by
    intro w
    rw [List.map_map]
    apply List.map_congr_left
    intro c _
    exact toupper_idem c
  have h2 : (s.m_words.map (fun w => w.map toupper)).map (fun w => w.map toupper)
      = s.m_words.map (fun w => w.map toupper) := by
    rw [List.map_map]
    apply List.map_congr_left
    intro w _
    exact h w
  simp only [capitalizeWords, h2]

/-- C9: for every input word list and all random streams, the list returned by
`words()` after `rearrange()` has the length of the input and its i-th element
is the i-th input word with every character converted to upper case, no word
reversed or moved: every byte from 97 to 122 (`'a' .. 'z'`) is replaced by the
byte 32 below it, in 65 to 90 (`'A' .. 'Z'`), and every other byte is kept; for
the input "c9T", "dog" the list is "C9T", "DOG". Capitalisation is idempotent,
on a character, on a word and as the method `capitalizeWords`. -/
theorem words_after_rearrange (ws : List (List Nat)) (gen rnd : Nat → Nat) :
    (rearrange gen rnd (new ws)).2.words = ws.map (fun w => w.map toupper) ∧
    (rearrange gen rnd (new ws)).2.words.length = ws.length ∧
    (∀ i, (rearrange gen rnd (new ws)).2.words.getD i [] = (ws.getD i []).map toupper) ∧
    (∀ c, toupper (toupper c) = toupper c) ∧
    (∀ w : List Nat, (w.map toupper).map toupper = w.map toupper) ∧
    (∀ s, capitalizeWords (capitalizeWords s) = capitalizeWords s) ∧
    (rearrange gen rnd (new ws)).2.words
      = ws.map (fun w => w.map (fun c => if 97 ≤ c ∧ c ≤ 122 then c - 32 else c)) ∧
    (∀ c, 97 ≤ c → c ≤ 122 → toupper c + 32 = c ∧ 65 ≤ toupper c ∧ toupper c ≤ 90) ∧
    (∀ c, c < 97 ∨ 122 < c → toupper c = c) ∧
    (rearrange (fun n => n) (fun n => n) (new [[99, 57, 84], [100, 111, 103]])).2.words
      = [[67, 57, 84], [68, 79, 71]] := by
  have h1 : (rearrange gen rnd (new ws)).2.words = ws.map (fun w => w.map toupper) := by
    show (rearrange gen rnd (new ws)).2.m_cap_words = _
    rw [(rearrange_words_eq gen rnd (new ws)).2, beforePlacement_cap_words, new_words]
  refine ⟨h1, by rw [h1, List.length_map], ?_, toupper_idem, ?_, capitalizeWords_idem,
    h1, ?_, ?_, by decide⟩
  · intro i
    rw [h1]
    simp only [List.getD_eq_getElem?_getD, List.getElem?_map]
    cases ws[i]? <;> simp
  · intro w
    rw [List.map_map]
    apply List.map_congr_left
    intro c _
    exact toupper_idem c
  · intro c h97 h122
    unfold toupper
    rw [if_pos ⟨h97, h122⟩]
    omega
  · intro c hc
    unfold toupper
    rw [if_neg (by omega)]

/-- C10, as stated, fails: for the words "a", "b" the capitalised copy is
"A", "B" in input order while the list used for placement is sorted into
"B", "A", after the scramble step and still after `rearrange`. -/
theorem words_order_differs :
    (beforePlacement (fun _ => 0) (new [[97], [98]])).m_cap_words = [[65], [66]] ∧
    (beforePlacement (fun _ => 0) (new [[97], [98]])).m_words = [[66], [65]] ∧
    (rearrange (fun _ => 0) (fun n => n) (new [[97], [98]])).2.m_cap_words = [[65], [66]] ∧
    (rearrange (fun _ => 0) (fun n => n) (new [[97], [98]])).2.m_words = [[66], [65]] := by
  decide

/-- C10, amended: after the scramble step, and still after `rearrange`, the word
list used for placement and the capitalised copy have the same length; the
copy keeps the capitalised input in input order, and every word of the
placement list is a word of the copy or the reversal of one (the placement
list is re-sorted, so the orderings need not agree). -/
theorem words_same_length (ws : List (List Nat)) (gen rnd : Nat → Nat) :
    (beforePlacement gen (new ws)).m_words.length
      = (beforePlacement gen (new ws)).m_cap_words.length ∧
    (beforePlacement gen (new ws)).m_cap_words = ws.map (fun w => w.map toupper) ∧
    (∀ w ∈ (beforePlacement gen (new ws)).m_words,
      ∃ v ∈ (beforePlacement gen (new ws)).m_cap_words, w = v ∨ w = reversed v) ∧
    (rearrange gen rnd (new ws)).2.m_words = (beforePlacement gen (new ws)).m_words ∧
    (rearrange gen rnd (new ws)).2.m_cap_words
      = (beforePlacement gen (new ws)).m_cap_words := by
  refine ⟨?_, rfl, beforePlacement_mem gen (new ws), (rearrange_words_eq gen rnd (new ws)).1,
    (rearrange_words_eq gen rnd (new ws)).2⟩
  rw [beforePlacement_length, beforePlacement_cap_words, List.length_map]

/-! ## Directions as compass steps -/

/-- C19: the step function of each compass direction is the fixed unit step
N = (-1, 0), S = (+1, 0), E = (0, +1), W = (0, -1), NE = (-1, +1), SE = (+1, +1),
NW = (-1, -1), SW = (+1, -1) on (row, column); the direction indices 0..7 are
cast through `Dir( idx + 1 )` to N, S, W, E, NE, SW, NW, SE, their eight steps
are non-zero and pairwise distinct, and the walk of `setFreeSpace` and the loop
of `insert` advance by the same step for the same index. -/
theorem direction_steps :
    ((∀ pos : Coord, m_dirlookup Dir.NT pos = ⟨pos.x - 1, pos.y⟩) ∧
      (∀ pos : Coord, m_dirlookup Dir.ST pos = ⟨pos.x + 1, pos.y⟩) ∧
      (∀ pos : Coord, m_dirlookup Dir.ET pos = ⟨pos.x, pos.y + 1⟩) ∧
      (∀ pos : Coord, m_dirlookup Dir.WT pos = ⟨pos.x, pos.y - 1⟩) ∧
      (∀ pos : Coord, m_dirlookup Dir.NE pos = ⟨pos.x - 1, pos.y + 1⟩) ∧
      (∀ pos : Coord, m_dirlookup Dir.SE pos = ⟨pos.x + 1, pos.y + 1⟩) ∧
      (∀ pos : Coord, m_dirlookup Dir.NW pos = ⟨pos.x - 1, pos.y - 1⟩) ∧
      (∀ pos : Coord, m_dirlookup Dir.SW pos = ⟨pos.x + 1, pos.y - 1⟩)) ∧
    (Dir.ofInt (0 + 1) = Dir.NT ∧ Dir.ofInt (1 + 1) = Dir.ST ∧ Dir.ofInt (2 + 1) = Dir.WT ∧
      Dir.ofInt (3 + 1) = Dir.ET ∧ Dir.ofInt (4 + 1) = Dir.NE ∧ Dir.ofInt (5 + 1) = Dir.SW ∧
      Dir.ofInt (6 + 1) = Dir.NW ∧ Dir.ofInt (7 + 1) = Dir.SE) ∧
    (delta 0 = (-1, 0) ∧ delta 1 = (1, 0) ∧ delta 2 = (0, -1) ∧ delta 3 = (0, 1) ∧
      delta 4 = (-1, 1) ∧ delta 5 = (1, -1) ∧ delta 6 = (-1, -1) ∧ delta 7 = (1, 1)) ∧
    (∀ d e : Nat, d < 8 → e < 8 → delta (d : Int) = delta (e : Int) → d = e) ∧
    (∀ d : Nat, d < 8 → delta (d : Int) ≠ (0, 0)) ∧
    (∀ (d : Nat) (pos : Coord), d < 8 →
      m_dirlookup (Dir.ofInt ((d : Int) + 1)) pos
        = ⟨pos.x + (delta (d : Int)).1, pos.y + (delta (d : Int)).2⟩) ∧
    (∀ (s : WordScrambler) (i fuel : Nat) (pos : Coord),
      rayWalk s i (fuel + 1) pos
        = if isValidDir s (m_dirlookup (Dir.ofInt ((i : Int) + 1)) pos) &&
              cellAt s.m_puzzle pos == 0
          then (rayWalk s i fuel (m_dirlookup (Dir.ofInt ((i : Int) + 1)) pos)).map (· + 1)
          else some 0) ∧
    (∀ (i : Nat) (c : Nat) (cs : List Nat) (pos : Coord) (g : List (List Nat)),
      insertLoop (i : Int) (c :: cs) pos g
        = insertLoop (i : Int) cs (m_dirlookup (Dir.ofInt ((i : Int) + 1)) pos)
            (putAt g pos c)) := by
  refine ⟨⟨fun _ => rfl, fun _ => rfl, fun _ => rfl, fun _ => rfl, fun _ => rfl,
    fun _ => rfl, fun _ => rfl, fun _ => rfl⟩, by decide, by decide, ?_, ?_, ?_,
    fun _ _ _ _ => rfl, fun _ _ _ _ _ => rfl⟩
  · intro d e hd he
    interval_cases d <;> interval_cases e <;> decide
  · intro d hd
    interval_cases d <;> decide
  · intro d pos hd
    have h := step_eq_rayCell (d : Int) (Int.natCast_nonneg d) (by exact_mod_cast hd) pos
    rw [h]
    simp [rayCell]

/-! ## The empty word list -/

/-- C12, as stated, fails: for the empty word list the dimension is 2, not 0, and
neither the grid nor the metadata table is empty. -/
theorem new_nil_dim_ne_zero :
    (new []).m_ncol = 2 ∧ (new []).m_ncol ≠ 0 ∧ (new []).m_puzzle ≠ [] ∧
    (new []).m_pos_col ≠ [] := by
  decide

/-- C12, amended: for the empty word list grid sizing yields the dimension 2 (the
margin added to the longest length): a 2 by 2 grid of empty cells and a 2 by 2
metadata table whose entries hold their own coordinates; for every word list
the dimension is at least 2. -/
theorem new_nil_dim :
    puzzleDim [] = 2 ∧ (new []).m_ncol = 2 ∧ (new []).m_nrow = 2 ∧
    (new []).m_puzzle = [[0, 0], [0, 0]] ∧
    (new []).m_pos_col.map (fun row => row.map (fun m => m.pos))
      = [[⟨0, 0⟩, ⟨0, 1⟩], [⟨1, 0⟩, ⟨1, 1⟩]] ∧
    WellFormed (new []) ∧
    ∀ ws : List (List Nat), 2 ≤ (new ws).m_ncol := by
  refine ⟨by decide, by decide, by decide, by decide, by decide, new_wellFormed [], ?_⟩
  intro ws
  rw [new_ncol, puzzleDim_eq]
  exact le_trans (by omega) (le_max_left _ _)

/-! ## Shape of the engine -/

theorem try_position_wellFormed (rnd : Nat → Nat) (s : WordScrambler) (p : Nat)
    (w : List Nat) (hw : WellFormed s) :
    WellFormed (try_position rnd s p w).2.1 ∧
    (try_position rnd s p w).2.1.m_ncol = s.m_ncol ∧
    (try_position rnd s p w).2.1.m_nrow = s.m_nrow := by
  have hfo : FullOnly s (vacant rnd s p w.length).2.1 :=
    (vacantLoop_spec rnd w.length 100 s p).1
  have hwv := fullOnly_wellFormed hfo hw
  by_cases h : (try_position rnd s p w).1 = true
  · obtain ⟨_, ht⟩ := try_position_placed rnd s p w h
    rw [ht]
    exact ⟨wellFormed_setPuzzle hwv _ (insertLoop_shape _ _ _ _ _ _ hwv.puzzle_shape),
      hfo.2.2.2.2.1, hfo.2.2.2.1⟩
  · rw [try_position_skipped rnd s p w h]
    exact ⟨hwv, hfo.2.2.2.2.1, hfo.2.2.2.1⟩

theorem addNoise_wellFormed (rnd : Nat → Nat) (s : WordScrambler) (p : Nat)
    (hw : WellFormed s) : WellFormed (addNoise rnd s p).1 := by
  have e := addNoise_ext rnd s p
  refine ⟨⟨?_, ?_⟩, hw.meta_shape, hw.meta_pos⟩
  · exact e.1.trans hw.puzzle_shape.1
  · intro i hi
    exact (e.2.1 i).trans (hw.puzzle_shape.2 i hi)

/-- C20: after construction the grid and the metadata table are both dim by dim
and the metadata of cell (i, j) holds the coordinate (i, j); `computeFreeSpace`,
`vacant`, `insert`, `try_position`, `positionWords` and `addNoise` each keep
`m_ncol`, `m_nrow`, the dimensions of both tables and every cell's coordinate
(`insert` and `addNoise` leave the metadata table as it is), and so does the
whole of `rearrange`. -/
theorem engine_shape_invariant (s : WordScrambler) (h : WellFormed s)
    (ws : List (List Nat)) (gen rnd : Nat → Nat) (p size : Nat) (w : List Nat)
    (pos_m : Int × PosMetaData) :
    (WellFormed (new ws) ∧ (new ws).m_ncol = puzzleDim ws ∧
      (new ws).m_nrow = puzzleDim ws) ∧
    (WellFormed (computeFreeSpace s) ∧ (computeFreeSpace s).m_ncol = s.m_ncol ∧
      (computeFreeSpace s).m_nrow = s.m_nrow) ∧
    (WellFormed (vacant rnd s p size).2.1 ∧ (vacant rnd s p size).2.1.m_ncol = s.m_ncol ∧
      (vacant rnd s p size).2.1.m_nrow = s.m_nrow) ∧
    (WellFormed (insert s pos_m w) ∧ (insert s pos_m w).m_pos_col = s.m_pos_col ∧
      (insert s pos_m w).m_ncol = s.m_ncol ∧ (insert s pos_m w).m_nrow = s.m_nrow) ∧
    (WellFormed (try_position rnd s p w).2.1 ∧
      (try_position rnd s p w).2.1.m_ncol = s.m_ncol ∧
      (try_position rnd s p w).2.1.m_nrow = s.m_nrow) ∧
    (WellFormed (positionWords rnd s p).2.1 ∧
      (positionWords rnd s p).2.1.m_ncol = s.m_ncol ∧
      (positionWords rnd s p).2.1.m_nrow = s.m_nrow) ∧
    (WellFormed (addNoise rnd s p).1 ∧ (addNoise rnd s p).1.m_pos_col = s.m_pos_col ∧
      (addNoise rnd s p).1.m_ncol = s.m_ncol ∧ (addNoise rnd s p).1.m_nrow = s.m_nrow) ∧
    (WellFormed (rearrange gen rnd (new ws)).2 ∧
      (rearrange gen rnd (new ws)).2.m_ncol = puzzleDim ws ∧
      (rearrange gen rnd (new ws)).2.m_nrow = puzzleDim ws) := by
  have hfo : FullOnly s (vacant rnd s p size).2.1 := (vacantLoop_spec rnd size 100 s p).1
  obtain ⟨b1, b2, b3⟩ := beforeNoise_wellFormed gen rnd ws
  refine ⟨⟨new_wellFormed ws, new_ncol ws, new_nrow ws⟩,
    ⟨computeFreeSpace_wellFormed s h, rfl, rfl⟩,
    ⟨fullOnly_wellFormed hfo h, hfo.2.2.2.2.1, hfo.2.2.2.1⟩,
    ⟨wellFormed_setPuzzle h _ (insertLoop_shape _ _ _ _ _ _ h.puzzle_shape), rfl, rfl, rfl⟩,
    try_position_wellFormed rnd s p w h,
    positionLoop_wellFormed rnd s.m_words s p 0 h,
    ⟨addNoise_wellFormed rnd s p h, rfl, rfl, rfl⟩, ?_⟩
  rw [rearrange_state_eq]
  exact ⟨addNoise_wellFormed rnd _ _ b1, b2, b3⟩

/-- Witness of C20: the engine built for "cat", "dog". -/
theorem engine_shape_invariant_witness :
    WellFormed (computeFreeSpace (new [[99, 97, 116], [100, 111, 103]])) ∧
    (rearrange (fun n => n) (fun n => n) (new [[99, 97, 116], [100, 111, 103]])).2.m_ncol
      = 5 :=
  ⟨(engine_shape_invariant (new [[99, 97, 116], [100, 111, 103]])
      (new_wellFormed _) [[99, 97, 116], [100, 111, 103]] (fun n => n) (fun n => n) 0 3
      [67, 65, 84] (1, {})).2.1.1,
    by decide⟩

/-! ## Recomputation of the metadata -/

theorem rayWalk_congr (s t : WordScrambler) (hg : t.m_puzzle = s.m_puzzle)
    (hc : t.m_ncol = s.m_ncol) (hr : t.m_nrow = s.m_nrow) (i fuel : Nat) (pos : Coord) :
    rayWalk t i fuel pos = rayWalk s i fuel pos := by
  induction fuel generalizing pos with
  | zero => rfl
  | succ fuel ih =>
    simp only [rayWalk, isValidDir, hg, hc, hr, ih]

theorem setFreeSpace_congr (s t : WordScrambler) (hg : t.m_puzzle = s.m_puzzle)
    (hc : t.m_ncol = s.m_ncol) (hr : t.m_nrow = s.m_nrow) (a b : PosMetaData)
    (hp : b.pos = a.pos) :
    (setFreeSpace t b).freespace = (setFreeSpace s a).freespace ∧
    (setFreeSpace t b).pos = (setFreeSpace s a).pos ∧
    (setFreeSpace s a).full = a.full := by
  refine ⟨?_, hp, rfl⟩
  simp only [setFreeSpace, walkFuel, hc, hr, hp]
  apply List.map_congr_left
  intro i _
  rw [rayWalk_congr s t hg hc hr]

/-- C17, as stated, fails. On the grid built for "cat", "dog" (all cells empty),
mark cell (1, 1) saturated and recompute: the flag is still set, so the
recomputed table differs from the one computed from the same grid without the
mark, and with a stream that always picks cell (1, 1) and direction index 1
`vacant` still skips the cell on all 100 probes and returns -1 for a word of
length 1, although without the mark it accepts that cell at once. -/
theorem computeFreeSpace_keeps_full :
    (tget (computeFreeSpace
      { computeFreeSpace (new [[99, 97, 116], [100, 111, 103]]) with
        m_pos_col :=
          tset (computeFreeSpace (new [[99, 97, 116], [100, 111, 103]])).m_pos_col 1 1
            { (tget (computeFreeSpace (new [[99, 97, 116], [100, 111, 103]])).m_pos_col
                1 1 {}) with full := true } }).m_pos_col 1 1 {}).full = true ∧
    (tget (computeFreeSpace (computeFreeSpace
      (new [[99, 97, 116], [100, 111, 103]]))).m_pos_col 1 1 {}).full = false ∧
    (vacant (fun _ => 1) (computeFreeSpace
      { computeFreeSpace (new [[99, 97, 116], [100, 111, 103]]) with
        m_pos_col :=
          tset (computeFreeSpace (new [[99, 97, 116], [100, 111, 103]])).m_pos_col 1 1
            { (tget (computeFreeSpace (new [[99, 97, 116], [100, 111, 103]])).m_pos_col
                1 1 {}) with full := true } }) 0 1).1.1 = -1 ∧
    (vacant (fun _ => 1) (computeFreeSpace (computeFreeSpace
      (new [[99, 97, 116], [100, 111, 103]]))) 0 1).1.1 = 1 := by
  decide

/-- C17, amended: after `computeFreeSpace` the coordinate and the eight free-space
counts of every cell depend only on the current grid and its dimensions, not on
the counts or flags held before (two engines with the same grid get the same
counts); the saturated flag is not recomputed: every cell keeps the flag it
had, so a cell marked saturated stays skipped after a recomputation. -/
theorem computeFreeSpace_depends_on_grid (s t : WordScrambler) (hs : WellFormed s)
    (ht : WellFormed t) (hg : t.m_puzzle = s.m_puzzle) (hc : t.m_ncol = s.m_ncol)
    (hr : t.m_nrow = s.m_nrow) (i j : Nat) (hi : i < s.m_ncol) (hj : j < s.m_nrow) :
    (tget (computeFreeSpace t).m_pos_col i j {}).freespace
      = (tget (computeFreeSpace s).m_pos_col i j {}).freespace ∧
    (tget (computeFreeSpace t).m_pos_col i j {}).pos
      = (tget (computeFreeSpace s).m_pos_col i j {}).pos ∧
    (tget (computeFreeSpace s).m_pos_col i j {}).full = (tget s.m_pos_col i j {}).full ∧
    (tget (computeFreeSpace t).m_pos_col i j {}).full = (tget t.m_pos_col i j {}).full := by
  have hi2 : i < t.m_ncol := by rw [hc]; exact hi
  have hj2 : j < t.m_nrow := by rw [hr]; exact hj
  rw [computeFreeSpace_entry s hs.meta_shape i j hi hj,
    computeFreeSpace_entry t ht.meta_shape i j hi2 hj2]
  have hp : (tget t.m_pos_col i j {}).pos = (tget s.m_pos_col i j {}).pos := by
    rw [hs.meta_pos i j hi hj, ht.meta_pos i j hi2 hj2]
  obtain ⟨e1, e2, e3⟩ := setFreeSpace_congr s t hg hc hr _ _ hp
  exact ⟨e1, e2, e3, rfl⟩

/-- Witness of C17: the empty 5 by 5 grid, once with cell (1, 1) marked saturated
and once without; the recomputed counts of cell (1, 1) agree. -/
theorem computeFreeSpace_depends_on_grid_witness :
    (tget (computeFreeSpace
      { new [[99, 97, 116], [100, 111, 103]] with
        m_pos_col :=
          tset (new [[99, 97, 116], [100, 111, 103]]).m_pos_col 1 1
            { (tget (new [[99, 97, 116], [100, 111, 103]]).m_pos_col 1 1 {}) with
              full := true } }).m_pos_col 1 1 {}).freespace
      = (tget (computeFreeSpace (new [[99, 97, 116], [100, 111, 103]])).m_pos_col
          1 1 {}).freespace :=
  (computeFreeSpace_depends_on_grid (new [[99, 97, 116], [100, 111, 103]]) _
    (new_wellFormed _)
    (fullOnly_wellFormed (fullOnly_setFull (new [[99, 97, 116], [100, 111, 103]]) 1 1)
      (new_wellFormed _))
    rfl rfl rfl 1 1 (by decide) (by decide)).1

/-! ## The scramble step -/

theorem probeDirs_position (rnd : Nat → Nat) (fs : List Nat) (size : Nat)
    (iters k f p : Nat) :
    p ≤ (probeDirs rnd fs size iters k f p).2 ∧
      (probeDirs rnd fs size iters k f p).2 ≤ p + iters := by
  induction iters generalizing k f p with
  | zero => simp [probeDirs]
  | succ iters ih =>
    simp only [probeDirs]
    split
    · simp
    · split
      · simp
      · have := ih (k + 1) ((f ||| zeroBit (fs.getD (rnd p % 8) 0) <<< k) % 256) (p + 1)
        omega

/-- An accepting run of the inner loop of `vacant` accepts the first drawn
direction whose count meets the size: the draws before it were all too small. -/
theorem probeDirs_found_first (rnd : Nat → Nat) (fs : List Nat) (size : Nat)
    (iters k f p idx p1 : Nat)
    (h : probeDirs rnd fs size iters k f p = (Probe.found idx, p1)) :
    ∃ m, m < iters ∧ p1 = p + m + 1 ∧ idx = rnd (p + m) % 8 ∧ size ≤ fs.getD idx 0 ∧
      ∀ q, q < m → fs.getD (rnd (p + q) % 8) 0 < size := by
  induction iters generalizing k f p with
  | zero => simp [probeDirs] at h
  | succ iters ih =>
    simp only [probeDirs] at h
    split at h
    · simp at h
    · split at h
      · rename_i hsz
        simp only [Prod.mk.injEq, Probe.found.injEq] at h
        obtain ⟨h1, h2⟩ := h
        subst h1
        exact ⟨0, Nat.succ_pos _, by omega, rfl, hsz, fun q hq => absurd hq (Nat.not_lt_zero q)⟩
      · rename_i hsz
        obtain ⟨m, hm, e1, e2, e3, e4⟩ := ih _ _ _ h
        refine ⟨m + 1, Nat.succ_lt_succ hm, by omega, ?_, e3, ?_⟩
        · rw [e2]
          congr 2
          omega
        · intro q hq
          cases q with
          | zero => exact Nat.lt_of_not_le hsz
          | succ q =>
            have := e4 q (by omega)
            have e : p + (q + 1) = p + 1 + q := by omega
            rw [e]
            exact this

theorem vacantLoop_position (rnd : Nat → Nat) (size n : Nat) (s : WordScrambler) (p : Nat) :
    p ≤ (vacantLoop rnd size n s p).2.2 ∧ (vacantLoop rnd size n s p).2.2 ≤ p + 10 * n ∧
    ((vacantLoop rnd size n s p).1.1 = -1 → p + 2 * n ≤ (vacantLoop rnd size n s p).2.2) := by
  induction n generalizing s p with
  | zero => simp [vacantLoop]
  | succ n ih =>
    simp only [vacantLoop]
    split
    · obtain ⟨h1, h2, h3⟩ := ih s (p + 2)
      exact ⟨by omega, by omega, fun h => by have := h3 h; omega⟩
    · have hp := probeDirs_position rnd
        (tget s.m_pos_col (rnd p % s.m_ncol) (rnd (p + 1) % s.m_nrow) {}).freespace size 8 0 0
        (p + 2)
      split
      · rename_i idx p1 heq
        rw [heq] at hp
        simp only at hp
        refine ⟨?_, ?_, ?_⟩
        · show p ≤ p1
          omega
        · show p1 ≤ p + 10 * (n + 1)
          omega
        · intro h
          have h1 : ((idx : Nat) : Int) = -1 := h
          omega
      · rename_i p1 heq
        rw [heq] at hp
        simp only at hp
        exact ⟨le_trans (by omega) (ih _ p1).1, le_trans (ih _ p1).2.1 (by omega),
          fun h => le_trans (by omega) ((ih _ p1).2.2 h)⟩
      · rename_i p1 heq
        rw [heq] at hp
        simp only at hp
        obtain ⟨h1, h2, h3⟩ := ih s p1
        exact ⟨by omega, by omega, fun h => by have := h3 h; omega⟩

/-- An accepted pair of `vacant` comes from one probe, started at stream
position `p0`: the cell `(rnd p0 % m_ncol, rnd (p0 + 1) % m_nrow)` of the table
the loop ends with, not marked `full`, and the direction drawn at step `m` of
that probe, the first whose count meets the size. -/
theorem vacantLoop_accept (rnd : Nat → Nat) (size n : Nat) (s : WordScrambler) (p : Nat)
    (h : (vacantLoop rnd size n s p).1.1 ≠ -1) :
    ∃ p0 m, p ≤ p0 ∧ m < 8 ∧
      (vacantLoop rnd size n s p).1.2
        = tget (vacantLoop rnd size n s p).2.1.m_pos_col (rnd p0 % s.m_ncol)
            (rnd (p0 + 1) % s.m_nrow) {} ∧
      (vacantLoop rnd size n s p).1.2.full = false ∧
      (vacantLoop rnd size n s p).1.1 = ((rnd (p0 + 2 + m) % 8 : Nat) : Int) ∧
      size ≤ (vacantLoop rnd size n s p).1.2.freespace.getD (rnd (p0 + 2 + m) % 8) 0 ∧
      (∀ q, q < m →
        (vacantLoop rnd size n s p).1.2.freespace.getD (rnd (p0 + 2 + q) % 8) 0 < size) ∧
      (vacantLoop rnd size n s p).2.2 = p0 + 2 + m + 1 := by
  induction n generalizing s p with
  | zero => exact absurd rfl h
  | succ n ih =>
    simp only [vacantLoop] at h ⊢
    split
    · rename_i hfull
      simp only [hfull, ↓reduceIte] at h
      obtain ⟨p0, m, h1, rest⟩ := ih s (p + 2) h
      exact ⟨p0, m, by omega, rest⟩
    · rename_i hfull
      simp only [hfull, Bool.false_eq_true, ↓reduceIte] at h
      split
      · rename_i idx p1 heq
        obtain ⟨m, hm, e1, e2, e3, e4⟩ := probeDirs_found_first rnd _ size 8 0 0 (p + 2)
          idx p1 heq
        refine ⟨p, m, Nat.le_refl p, hm, rfl, by simpa using hfull, ?_, ?_, e4, e1⟩
        · simp only [e2]
        · simp only
          rw [← e2]
          exact e3
      · rename_i p1 heq
        simp only [heq] at h
        have hp := probeDirs_position rnd
          (tget s.m_pos_col (rnd p % s.m_ncol) (rnd (p + 1) % s.m_nrow) {}).freespace size 8
          0 0 (p + 2)
        rw [heq] at hp
        simp only at hp
        obtain ⟨p0, m, h1, rest⟩ := ih _ p1 h
        exact ⟨p0, m, by omega, rest⟩
      · rename_i p1 heq
        simp only [heq] at h
        have hp := probeDirs_position rnd
          (tget s.m_pos_col (rnd p % s.m_ncol) (rnd (p + 1) % s.m_nrow) {}).freespace size 8
          0 0 (p + 2)
        rw [heq] at hp
        simp only at hp
        obtain ⟨p0, m, h1, rest⟩ := ih s p1 h
        exact ⟨p0, m, by omega, rest⟩

/-- C11: on every engine whose grid has at least one cell, for every random
stream and every word that is longer than every free-space count of every
cell: `vacant` returns direction -1 after its 100 probes (each probe draws
between 2 and 10 numbers, so the stream advances by at least 200 and at most
1000), `try_position` returns false, the grid, the coordinates and all
free-space counts are as before, and the count of `positionWords` is not
increased for that word (0 placed when it is the only word). -/
theorem vacant_rejects_long_word (rnd : Nat → Nat) (s : WordScrambler) (p : Nat)
    (w : List Nat) (hc : 0 < s.m_ncol) (hr : 0 < s.m_nrow)
    (hbig : ∀ i, i < s.m_ncol → ∀ j, j < s.m_nrow → ∀ d, d < 8 →
      (tget s.m_pos_col i j {}).freespace.getD d 0 < w.length) :
    (vacant rnd s p w.length).1.1 = -1 ∧
    p + 200 ≤ (vacant rnd s p w.length).2.2 ∧ (vacant rnd s p w.length).2.2 ≤ p + 1000 ∧
    (try_position rnd s p w).1 = false ∧
    (try_position rnd s p w).2.1.m_puzzle = s.m_puzzle ∧
    (∀ i j, (tget (try_position rnd s p w).2.1.m_pos_col i j {}).freespace
        = (tget s.m_pos_col i j {}).freespace ∧
      (tget (try_position rnd s p w).2.1.m_pos_col i j {}).pos
        = (tget s.m_pos_col i j {}).pos) ∧
    (∀ n, (positionLoop rnd [w] s p n).1 = n) ∧
    (positionWords rnd { s with m_words := [w] } p).1 = 0 := by
  have hrej : ∀ t : WordScrambler, t.m_ncol = s.m_ncol → t.m_nrow = s.m_nrow →
      t.m_pos_col = s.m_pos_col → (vacant rnd t p w.length).1.1 = -1 := by
    intro t e1 e2 e3
    rcases (vacantLoop_spec rnd w.length 100 t p).2 with h | ⟨i, j, d, hi, hj, hd, _, _, _, h4⟩
    · exact h
    · exfalso
      rw [e1] at hi
      rw [e2] at hj
      rw [e3] at h4
      have := hbig i (hi hc) j (hj hr) d hd
      omega
  have hv := hrej s rfl rfl rfl
  have hpos : p ≤ (vacant rnd s p w.length).2.2 ∧
      (vacant rnd s p w.length).2.2 ≤ p + 10 * 100 ∧
      ((vacant rnd s p w.length).1.1 = -1 → p + 2 * 100 ≤ (vacant rnd s p w.length).2.2) :=
    vacantLoop_position rnd w.length 100 s p
  have htry : ∀ t : WordScrambler, t.m_ncol = s.m_ncol → t.m_nrow = s.m_nrow →
      t.m_pos_col = s.m_pos_col → (try_position rnd t p w).1 = false := by
    intro t e1 e2 e3
    simp [try_position, hrej t e1 e2 e3]
  have hnot : ¬ (try_position rnd s p w).1 = true := by
    rw [htry s rfl rfl rfl]; exact Bool.false_ne_true
  have hfo := try_position_skipped_fullOnly rnd s p w hnot
  refine ⟨hv, ?_, hpos.2.1, htry s rfl rfl rfl, hfo.1,
    fun i j => ⟨(hfo.2.2.2.2.2.2.2 i j).2, (hfo.2.2.2.2.2.2.2 i j).1⟩, ?_, ?_⟩
  · have := hpos.2.2 hv
    omega
  · intro n
    simp [positionLoop, htry s rfl rfl rfl]
  · simp [positionWords, positionLoop, htry { s with m_words := [w] } rfl rfl rfl]

/-- Witness of C11: the 2 by 2 grid of the empty word list, whose free-space
counts are at most 1, and the word "CAT": 0 placed. -/
theorem vacant_rejects_long_word_witness :
    (vacant (fun n => n) (computeFreeSpace (new [])) 0 3).1.1 = -1 ∧
    (positionWords (fun n => n)
      { computeFreeSpace (new []) with m_words := [[67, 65, 84]] } 0).1 = 0 :=
  ⟨(vacant_rejects_long_word (fun n => n) (computeFreeSpace (new [])) 0 [67, 65, 84]
      (by decide) (by decide) (by decide)).1,
    (vacant_rejects_long_word (fun n => n) (computeFreeSpace (new [])) 0 [67, 65, 84]
      (by decide) (by decide) (by decide)).2.2.2.2.2.2.2⟩

/-- C15: whenever `vacant( size )` returns an accepted pair (direction not -1) on
a well-formed engine with at least one cell, the direction index is in 0..7,
the returned metadata is the record of a cell (i, j) inside the grid, picked by
the two draws that open a probe, with the coordinate and counts that cell has
in the table before the call, it was not marked `full` when probed, its count
in the returned direction is at least `size`, and the returned direction is the
first direction drawn in that probe whose count meets the size: every
direction drawn earlier in the probe has a smaller count. -/
theorem vacant_accepts_first_fit (rnd : Nat → Nat) (s : WordScrambler) (p size : Nat)
    (hw : WellFormed s) (hc : 0 < s.m_ncol) (hr : 0 < s.m_nrow)
    (h : (vacant rnd s p size).1.1 ≠ -1) :
    ∃ i j p0 m, i < s.m_ncol ∧ j < s.m_nrow ∧ m < 8 ∧ p ≤ p0 ∧
      i = rnd p0 % s.m_ncol ∧ j = rnd (p0 + 1) % s.m_nrow ∧
      (0 ≤ (vacant rnd s p size).1.1 ∧ (vacant rnd s p size).1.1 ≤ 7) ∧
      (vacant rnd s p size).1.1 = ((rnd (p0 + 2 + m) % 8 : Nat) : Int) ∧
      (vacant rnd s p size).1.2 = tget (vacant rnd s p size).2.1.m_pos_col i j {} ∧
      (vacant rnd s p size).1.2.pos = ⟨(i : Int), (j : Int)⟩ ∧
      (vacant rnd s p size).1.2.freespace = (tget s.m_pos_col i j {}).freespace ∧
      (vacant rnd s p size).1.2.full = false ∧
      size ≤ (vacant rnd s p size).1.2.freespace.getD (vacant rnd s p size).1.1.toNat 0 ∧
      (∀ q, q < m →
        (vacant rnd s p size).1.2.freespace.getD (rnd (p0 + 2 + q) % 8) 0 < size) ∧
      (vacant rnd s p size).2.2 = p0 + 2 + m + 1 := by
  obtain ⟨p0, m, h1, h2, h3, h4, h5, h6, h7, h8⟩ := vacantLoop_accept rnd size 100 s p h
  have hfo : FullOnly s (vacant rnd s p size).2.1 := (vacantLoop_spec rnd size 100 s p).1
  have hi : rnd p0 % s.m_ncol < s.m_ncol := Nat.mod_lt _ hc
  have hj : rnd (p0 + 1) % s.m_nrow < s.m_nrow := Nat.mod_lt _ hr
  have hlt : rnd (p0 + 2 + m) % 8 < 8 := Nat.mod_lt _ (by decide)
  have h3v : (vacant rnd s p size).1.2
      = tget (vacant rnd s p size).2.1.m_pos_col (rnd p0 % s.m_ncol)
          (rnd (p0 + 1) % s.m_nrow) {} := h3
  have h5v : (vacant rnd s p size).1.1 = ((rnd (p0 + 2 + m) % 8 : Nat) : Int) := h5
  refine ⟨rnd p0 % s.m_ncol, rnd (p0 + 1) % s.m_nrow, p0, m, hi, hj, h2, h1, rfl, rfl,
    ⟨by rw [h5v]; omega, by rw [h5v]; omega⟩, h5v, h3v, ?_, ?_, h4, ?_, h7, h8⟩
  · rw [h3v, (hfo.2.2.2.2.2.2.2 _ _).1]
    exact hw.meta_pos _ _ hi hj
  · rw [h3v, (hfo.2.2.2.2.2.2.2 _ _).2]
  · rw [h5v, Int.toNat_ofNat]
    exact h6

/-- Witness of C15: the empty 5 by 5 grid built for "cat", "dog", the identity
stream and size 3: the first probe picks cell (0, 1), draws the directions 2
and 3, and accepts direction 3 (east), the first one with room. -/
theorem vacant_accepts_first_fit_witness :
    (vacant (fun n => n) (computeFreeSpace (new [[99, 97, 116], [100, 111, 103]])) 0 3).1.1
      = 3 ∧
    ∃ (i j p0 m : Nat), i < 5 ∧ j < 5 ∧ m < 8 ∧
      (vacant (fun n => n) (computeFreeSpace (new [[99, 97, 116], [100, 111, 103]]))
        0 3).1.2.pos = ⟨(i : Int), (j : Int)⟩ ∧
      (vacant (fun n => n) (computeFreeSpace (new [[99, 97, 116], [100, 111, 103]]))
        0 3).2.2 = p0 + 2 + m + 1 := by
  refine ⟨by decide, ?_⟩
  obtain ⟨i, j, p0, m, h1, h2, h3, _, _, _, _, _, _, h4, _, _, _, _, h5⟩ :=
    vacant_accepts_first_fit (fun n => n)
      (computeFreeSpace (new [[99, 97, 116], [100, 111, 103]])) 0 3
      (computeFreeSpace_wellFormed _ (new_wellFormed _)) (by decide) (by decide) (by decide)
  exact ⟨i, j, p0, m, h1, h2, h3, h4, h5⟩

/-! ## The saturated flag -/

/-- C16, evaluated on a failing input: on the empty 5 by 5 grid built for "cat",
"dog", with a stream whose first probe picks cell (0, 0) and draws the
directions 0, 2, 4, 5, 6, 0, 2, 4 (all without room at that corner), `vacant`
marks cell (0, 0) `full` although its counts towards south, east and
south-east are 4. With the stream that is constantly 0 the same happens and
then every probe skips the cell, so `rearrange` places neither word on the
empty grid. -/
theorem vacant_marks_full_with_room :
    (tget (vacant (fun n => [0, 0, 0, 2, 4, 5, 6, 0, 2, 4].getD n 1)
      (computeFreeSpace (new [[99, 97, 116], [100, 111, 103]])) 0 3).2.1.m_pos_col
      0 0 {}).full = true ∧
    (tget (computeFreeSpace (new [[99, 97, 116], [100, 111, 103]])).m_pos_col
      0 0 {}).full = false ∧
    (tget (vacant (fun n => [0, 0, 0, 2, 4, 5, 6, 0, 2, 4].getD n 1)
      (computeFreeSpace (new [[99, 97, 116], [100, 111, 103]])) 0 3).2.1.m_pos_col
      0 0 {}).freespace = [0, 4, 0, 4, 0, 0, 0, 4] ∧
    (vacant (fun _ => 0)
      (computeFreeSpace (new [[99, 97, 116], [100, 111, 103]])) 0 3).1.1 = -1 ∧
    (rearrange (fun n => n) (fun _ => 0) (new [[99, 97, 116], [100, 111, 103]])).1 = 0 := by
  decide

/-! ## Checked execution -/

theorem putAtChk_eq (g : List (List Nat)) (r n : Nat) (hs : Shape g r n) (pos : Coord)
    (c : Nat) (hx0 : 0 ≤ pos.x) (hx : pos.x < (r : Int)) (hy0 : 0 ≤ pos.y)
    (hy : pos.y < (n : Int)) : putAtChk g pos c = some (putAt g pos c) := by
  have h1 : pos.x.toNat < r := by omega
  have h2 : pos.y.toNat < n := by omega
  have h3 : pos.x.toNat < g.length ∧ pos.y.toNat < (g.getD pos.x.toNat []).length := by
    rw [hs.1, hs.2 _ h1]
    exact ⟨h1, h2⟩
  simp only [putAtChk, putAt, tsetChk, if_pos (And.intro hx0 hy0), if_pos h3]

theorem dirChk_eq (d : Int) (h0 : 0 ≤ d) (h8 : d < 8) :
    dirChk (d + 1) = some (m_dirlookup (Dir.ofInt (d + 1))) := by
  have h : 0 ≤ d + 1 ∧ d + 1 ≤ 8 := by omega
  simp only [dirChk, if_pos h]

/-- The checked loop of `insert` runs without a fault and gives the grid of the
unchecked loop when the ray of the word lies inside the grid. -/
theorem insertLoopChk_eq (d : Int) (h0 : 0 ≤ d) (h8 : d < 8) (w : List Nat) (pos : Coord)
    (g : List (List Nat)) (r n : Nat) (hs : Shape g r n)
    (hin : ∀ k, k < w.length →
      0 ≤ (rayCell d pos k).x ∧ (rayCell d pos k).x < (r : Int) ∧
      0 ≤ (rayCell d pos k).y ∧ (rayCell d pos k).y < (n : Int)) :
    insertLoopChk d w pos g = some (insertLoop d w pos g) := by
  induction w generalizing pos g with
  | nil => rfl
  | cons c cs ih =>
    have hpos := hin 0 (by simp)
    rw [rayCell_zero] at hpos
    simp only [insertLoopChk, insertLoop,
      putAtChk_eq g r n hs pos c hpos.1 hpos.2.1 hpos.2.2.1 hpos.2.2.2, dirChk_eq d h0 h8]
    rw [step_eq_rayCell d h0 h8]
    apply ih _ _ (putAt_shape g r n hs pos c)
    intro k hk
    rw [rayCell_succ]
    exact hin (k + 1) (by simpa using hk)
theorem reverseRounds_nil (gen : Nat → Nat) (n p : Nat) : reverseRounds gen n p [] = [] := by
  induction n generalizing p with
  | zero => rfl
  | succ n ih =>
    rw [reverseRounds]
    simp only [List.length_nil]
    generalize dist 0 (gen p) = d
    split
    · exact ih _
    · exact ih _

theorem scramble_words_nil (gen : Nat → Nat) (s : WordScrambler) (h : s.m_words = []) :
    (scramble gen s).m_words = [] := by
  show sortDesc (reverseRounds gen (scrambleRounds gen s) 1 s.m_words) = []
  rw [h, reverseRounds_nil]
  rfl

theorem positionWords_nil (rnd : Nat → Nat) (s : WordScrambler) (p : Nat)
    (h : s.m_words = []) : positionWords rnd s p = (0, s, p) := by
  show positionLoop rnd s.m_words s p 0 = _
  rw [h]
  rfl

theorem distChk_zero (raw : Nat) : distChk 0 raw = none := by
  unfold distChk
  rw [if_pos rfl]

theorem scrambleChk_nil (gen : Nat → Nat) (s : WordScrambler) (h : s.m_words = []) :
    scrambleChk gen s = none := by
  unfold scrambleChk
  rw [h, List.length_nil, distChk_zero]

theorem addNoise_dims (rnd : Nat → Nat) (s : WordScrambler) (p : Nat) :
    (addNoise rnd s p).1.m_ncol = s.m_ncol ∧ (addNoise rnd s p).1.m_nrow = s.m_nrow :=
  ⟨rfl, rfl⟩

/-- The unchecked run on the empty word list: whatever the number of rounds of
the loop of `scramble`, once the loop has ended the word list is still empty,
so no word is visited and the count is 0 on the 2 by 2 grid. -/
theorem rearrange_nil_count (gen rnd : Nat → Nat) :
    (rearrange gen rnd (new [])).1 = 0 ∧
    (rearrange gen rnd (new [])).2.m_ncol = 2 ∧ (rearrange gen rnd (new [])).2.m_nrow = 2 := by
  have hw : (beforePlacement gen (new [])).m_words = [] :=
    scramble_words_nil gen (capitalizeWords (computeFreeSpace (new []))) rfl
  obtain ⟨_, b2, b3⟩ := beforeNoise_wellFormed gen rnd []
  have hd : puzzleDim [] = 2 := by decide
  refine ⟨?_, ?_, ?_⟩
  · rw [rearrange_count_eq, positionWords_nil rnd _ 0 hw]
  · rw [rearrange_state_eq, (addNoise_dims rnd _ _).1]
    exact b2.trans hd
  · rw [rearrange_state_eq, (addNoise_dims rnd _ _).2]
    exact b3.trans hd

/-- C13, evaluated on the failing input, the empty word list. The engine is
built with a 2 by 2 grid and the first step of `rearrange`, `computeFreeSpace`,
runs without a fault; then `scramble` builds its distribution with the empty
range [1, 0], so the checked run of `scramble`, and with it of `rearrange`,
faults for all streams. Unchecked, the draws are arbitrary values of `int`: a
raw value of 4294967294 gives the draw -1, which the conversion to
`std::size_t` turns into 18446744073709551615 rounds of the loop of
`scramble`. Only if that loop ends does `rearrange` return, with count 0. -/
theorem rearrange_nil_faults :
    (new []).m_words = [] ∧
    computeFreeSpaceChk (new []) = some (computeFreeSpace (new [])) ∧
    (∀ raw, distChk (capitalizeWords (computeFreeSpace (new []))).m_words.length raw
      = none) ∧
    (∀ gen, scrambleChk gen (capitalizeWords (computeFreeSpace (new []))) = none) ∧
    (∀ gen rnd, rearrangeChk gen rnd (new []) = none) ∧
    dist 0 4294967294 = -1 ∧
    scrambleRounds (fun _ => 4294967294) (capitalizeWords (computeFreeSpace (new [])))
      = 18446744073709551615 ∧
    (∀ gen rnd, (rearrange gen rnd (new [])).1 = 0) := by
  have h1 : computeFreeSpaceChk (new []) = some (computeFreeSpace (new [])) := by decide
  have h2 : ∀ gen, scrambleChk gen (capitalizeWords (computeFreeSpace (new []))) = none :=
    fun gen => scrambleChk_nil gen _ rfl
  refine ⟨rfl, h1, fun raw => distChk_zero raw, h2, ?_, by decide, by decide,
    fun gen rnd => (rearrange_nil_count gen rnd).1⟩
  intro gen rnd
  simp only [rearrangeChk, h1, h2]

theorem try_position_of_accept (rnd : Nat → Nat) (s : WordScrambler) (p : Nat) (w : List Nat)
    (h : (vacant rnd s p w.length).1.1 ≠ -1) : (try_position rnd s p w).1 = true := by
  simp only [try_position, if_pos h]

/-- C14: the free-space count guarantees that the word fits. After
`computeFreeSpace`, for every cell c = (i, j), direction index d in 0..7 and
length n with `freespace[d]` of c at least n, the n cells c, c + delta(d), ...,
c + (n - 1) * delta(d) are all inside the grid and all empty. Consequently,
called with a pair accepted by `vacant` on an engine whose index is sound,
`insert` run with every access checked ends without a fault (it never indexes
outside the grid), gives the grid of the unchecked `insert`, writes only cells
that were empty, and leaves every non-empty cell as it was. -/
theorem freespace_guarantees_fit :
    (∀ (s : WordScrambler) (i j d n : Nat), WellFormed s → i < s.m_ncol → j < s.m_nrow →
      d < 8 → n ≤ (tget (computeFreeSpace s).m_pos_col i j {}).freespace.getD d 0 →
      ∀ k, k < n →
        inGrid s (rayCell (d : Int) ⟨(i : Int), (j : Int)⟩ k) ∧
          cellAt s.m_puzzle (rayCell (d : Int) ⟨(i : Int), (j : Int)⟩ k) = 0) ∧
    (∀ (rnd : Nat → Nat) (s : WordScrambler) (p : Nat) (w : List Nat),
      WellFormed s → Fresh s → 0 < s.m_ncol → 0 < s.m_nrow →
      (vacant rnd s p w.length).1.1 ≠ -1 →
      insertChk (vacant rnd s p w.length).2.1 (vacant rnd s p w.length).1 w
        = some (insert (vacant rnd s p w.length).2.1 (vacant rnd s p w.length).1 w) ∧
      (∀ k, k < w.length →
        inGrid s (rayCell (vacant rnd s p w.length).1.1
          (vacant rnd s p w.length).1.2.pos k) ∧
        cellAt s.m_puzzle (rayCell (vacant rnd s p w.length).1.1
          (vacant rnd s p w.length).1.2.pos k) = 0) ∧
      (∀ q, cellAt s.m_puzzle q ≠ 0 →
        cellAt (insert (vacant rnd s p w.length).2.1 (vacant rnd s p w.length).1 w).m_puzzle q
          = cellAt s.m_puzzle q)) := by
  constructor
  · intro s i j d n hw hi hj hd hn k hk
    have hfresh := computeFreeSpace_fresh s hw i j d hi hj hd
    have hcell : cellAt s.m_puzzle (rayCell (d : Int) ⟨(i : Int), (j : Int)⟩ k) = 0 :=
      (hfresh k (lt_of_lt_of_le hk hn)).1
    refine ⟨?_, hcell⟩
    cases k with
    | zero =>
      rw [rayCell_zero]
      unfold inGrid
      simp only
      omega
    | succ k => exact (hfresh k (by omega)).2
  · intro rnd s p w hw hf hc hr hacc
    have htrue := try_position_of_accept rnd s p w hacc
    obtain ⟨_, ht⟩ := try_position_placed rnd s p w htrue
    obtain ⟨t1, _, _, _, t5⟩ := try_position_step rnd s p w hw hf hc hr htrue
    obtain ⟨hd, hfr⟩ := try_position_frame rnd s p w htrue
    have hfo : FullOnly s (vacant rnd s p w.length).2.1 :=
      (vacantLoop_spec rnd w.length 100 s p).1
    have hsh : Shape (vacant rnd s p w.length).2.1.m_puzzle s.m_ncol s.m_nrow := by
      rw [hfo.1]; exact hw.puzzle_shape
    have hray : ∀ k, k < w.length →
        inGrid s (rayCell (vacant rnd s p w.length).1.1
          (vacant rnd s p w.length).1.2.pos k) ∧
        cellAt s.m_puzzle (rayCell (vacant rnd s p w.length).1.1
          (vacant rnd s p w.length).1.2.pos k) = 0 :=
      fun k hk => ⟨(t5 k hk).1, (t5 k hk).2.1⟩
    refine ⟨?_, hray, ?_⟩
    · have hd1 : 0 ≤ (vacant rnd s p w.length).1.1 ∧ (vacant rnd s p w.length).1.1 < 8 := hd
      simp only [insertChk, insert]
      rw [insertLoopChk_eq (vacant rnd s p w.length).1.1 hd1.1 hd1.2 w
        (vacant rnd s p w.length).1.2.pos (vacant rnd s p w.length).2.1.m_puzzle
        s.m_ncol s.m_nrow hsh (fun k hk => (hray k hk).1)]
      rfl
    · intro q hq
      rw [← ht]
      apply hfr q
      rintro ⟨k, hk, rfl⟩
      exact hq (hray k hk).2

/-- Witness of C14: the empty 5 by 5 grid built for "cat", "dog"; cell (0, 1) has
count 4 towards the south, so the three cells from it southwards are inside
the grid and empty. -/
theorem freespace_guarantees_fit_witness :
    (tget (computeFreeSpace (new [[99, 97, 116], [100, 111, 103]])).m_pos_col
      0 1 {}).freespace.getD 1 0 = 4 ∧
    ∀ k, k < 3 →
      inGrid (new [[99, 97, 116], [100, 111, 103]]) (rayCell 1 ⟨0, 1⟩ k) ∧
        cellAt (new [[99, 97, 116], [100, 111, 103]]).m_puzzle (rayCell 1 ⟨0, 1⟩ k) = 0 :=
  ⟨by decide,
    freespace_guarantees_fit.1 (new [[99, 97, 116], [100, 111, 103]]) 0 1 1 3
      (new_wellFormed _) (by decide) (by decide) (by decide) (by decide)⟩

set_option maxRecDepth 100000 in
theorem lor_shift_bit_small : ∀ k, k < 8 → ∀ f, f < 2 ^ k → ∀ b, b < 2 →
    (f ||| (b <<< k)) % 256 = f + b * 2 ^ k := by
  decide

theorem zeroBit_cases (v : Nat) : (zeroBit v = 1 ∧ v = 0) ∨ (zeroBit v = 0 ∧ v ≠ 0) := by
  unfold zeroBit
  by_cases h : v = 0
  · left; simp [h]
  · right; simp [h]

/-- What the inner loop of `vacant` does establish when it ends with the mask
`0xFF`: the loop was in its last iteration and all the directions drawn in the
probe had count 0. The bits of the mask stand for the draws, not for the
directions. -/
theorem probeDirs_saturated (rnd : Nat → Nat) (fs : List Nat) (size : Nat)
    (iters k f p p1 : Nat) (hk : iters + k = 8) (hf : f < 2 ^ k)
    (h : probeDirs rnd fs size iters k f p = (Probe.saturated, p1)) :
    ∃ m, m < iters ∧ k + m = 7 ∧ f + 1 = 2 ^ k ∧
      ∀ q, q ≤ m → fs.getD (rnd (p + q) % 8) 0 = 0 := by
  induction iters generalizing k f p with
  | zero => simp [probeDirs] at h
  | succ iters ih =>
    have hk8 : k < 8 := by omega
    have hb : zeroBit (fs.getD (rnd p % 8) 0) < 2 := by
      rcases zeroBit_cases (fs.getD (rnd p % 8) 0) with hz | hz <;> omega
    have hmask := lor_shift_bit_small k hk8 f hf _ hb
    simp only [probeDirs] at h
    rw [hmask] at h
    split at h
    · rename_i h255
      refine ⟨0, Nat.succ_pos _, ?_, ?_, ?_⟩
      · interval_cases k <;> rcases zeroBit_cases (fs.getD (rnd p % 8) 0) with hz | hz <;>
          simp only [hz.1] at h255 <;> omega
      · interval_cases k <;> rcases zeroBit_cases (fs.getD (rnd p % 8) 0) with hz | hz <;>
          simp only [hz.1] at h255 <;> omega
      · intro q hq
        have hq0 : q = 0 := by omega
        subst hq0
        interval_cases k <;> rcases zeroBit_cases (fs.getD (rnd p % 8) 0) with hz | hz <;>
          simp only [hz.1] at h255 <;> first | omega | exact hz.2
    · split at h
      · simp at h
      · have hf1 : f + zeroBit (fs.getD (rnd p % 8) 0) * 2 ^ k < 2 ^ (k + 1) := by
          interval_cases k <;> rcases zeroBit_cases (fs.getD (rnd p % 8) 0) with hz | hz <;>
            simp only [hz.1] <;> omega
        obtain ⟨m, hm, e1, e2, e3⟩ := ih (k + 1) _ (p + 1) (by omega) hf1 h
        have hzero : fs.getD (rnd p % 8) 0 = 0 ∧ f + 1 = 2 ^ k := by
          interval_cases k <;> rcases zeroBit_cases (fs.getD (rnd p % 8) 0) with hz | hz <;>
            simp only [hz.1] at e2 <;> omega
        refine ⟨m + 1, Nat.succ_lt_succ hm, by omega, hzero.2, ?_⟩
        intro q hq
        cases q with
        | zero => exact hzero.1
        | succ q =>
          have := e3 q (by omega)
          have e : p + (q + 1) = p + 1 + q := by omega
          rw [e]
          exact this

end WordScrambler
